
import Mathlib

set_option maxHeartbeats 1000000

set_option linter.unusedVariables false

/-!
# Verification of `firmware_minimizer.py`

Shallow embedding of the pattern compiler (`_compile_patterns`), the tree
filter (`filter_firmware_files`, deletion pass and empty-directory pruning
pass), the external-command helpers (`run_command`, `extract_rpm`), the
packager (`create_rpm`) and the configuration reader (`read_drivers_yaml`)
of `src/firmware_minimizer.py`, together with theorems settling the frozen
claims about them.
-/

/-! ## Pattern compiler (`_compile_patterns`, firmware_minimizer.py:137-148) -/

/-- A unit of the regex body built by `_compile_patterns`: `re.escape` turns
every character of the driver string into one literal unit, after which the
escaped `*` units are rewritten to `.*` and the escaped `?` units to `.`. -/
inductive Tok where
  | star : Tok
  | qmark : Tok
  | lit : Char → Tok

deriving DecidableEq, Repr

/-- Compilation of one driver pattern, i.e. the regex body of
`re.compile("^" + re.escape(driver).replace(r"\*", ".*").replace(r"\?", ".") + "$")`
in unit-token form: `*` becomes `.*`, `?` becomes `.`, anything else a literal. -/
def compileDriver (s : String) : List Tok :=
  s.data.map (fun c => if c = '*' then Tok.star else if c = '?' then Tok.qmark else Tok.lit c)

/-- `_compile_patterns`: one compiled matcher per driver, order and count kept. -/
def _compile_patterns (drivers : List String) : List (List Tok) :=
  drivers.map compileDriver

/-- One `.*` step (from a `*` wildcard) under Python `re` semantics:
`.*` matches any run of characters none of which is a newline, after which
the rest of the pattern (`f`) must match the remaining characters. -/
def starMatch (f : List Char → Bool) : List Char → Bool
  | [] => f []
  | d :: ds => f (d :: ds) || (!(d == '\n') && starMatch f ds)

/-- Matching of the regex body against a character list with Python `re`
semantics (no `DOTALL`, no `MULTILINE`): the `.` coming from `?` matches any
single character except a newline, the `.*` coming from `*` matches any run
of characters none of which is a newline, a literal matches itself. -/
def tokMatch : List Tok → List Char → Bool
  | [], ds => ds.isEmpty
  | Tok.lit c :: ts, ds =>
      match ds with
      | [] => false
      | d :: ds2 => c == d && tokMatch ts ds2
  | Tok.qmark :: ts, ds =>
      match ds with
      | [] => false
      | d :: ds2 => !(d == '\n') && tokMatch ts ds2
  | Tok.star :: ts, ds => starMatch (tokMatch ts) ds

/-- `p.search(rel_str)` for the anchored pattern `^body$` (Python `re`):
`^` pins the match to position 0 and `$` matches either at the very end of
the string or just before a newline that is the last character. -/
def searchAnchored (ts : List Tok) (s : String) : Bool :=
  tokMatch ts s.data ||
    (match s.data.getLast? with
     | some c => c == '\n' && tokMatch ts s.data.dropLast
     | none => false)

/-- Spec-side `*` step: `*` matches any sequence of characters, without any
exception, after which the rest of the pattern must match. -/
def specStarMatch (f : List Char → Bool) : List Char → Bool
  | [] => f []
  | d :: ds => f (d :: ds) || specStarMatch f ds

/-- Modelled from the spec's wording of the wildcard semantics, for comparison
with the compiled matcher: `*` matches any sequence of characters (path
separators included, no exception for any character), `?` matches exactly one
arbitrary character, every other character matches itself literally, and the
whole candidate string must be consumed (anchored at both ends). -/
def specGlobMatch : List Tok → List Char → Bool
  | [], ds => ds.isEmpty
  | Tok.lit c :: ts, ds =>
      match ds with
      | [] => false
      | d :: ds2 => c == d && specGlobMatch ts ds2
  | Tok.qmark :: ts, ds =>
      match ds with
      | [] => false
      | _ :: ds2 => specGlobMatch ts ds2
  | Tok.star :: ts, ds => specStarMatch (specGlobMatch ts) ds

/-! ## File tree model (`filter_firmware_files`, firmware_minimizer.py:151-197)

An extracted tree is a list of entries under the firmware root, each a
relative path (list of segments) with a kind.  Symlink targets are modelled
as paths relative to the same root; a target outside the modelled tree
behaves like a dangling link. -/

inductive EntryKind where
  | file : EntryKind
  | dir : EntryKind
  | symlink : List String → EntryKind
  | other : EntryKind

deriving DecidableEq, Repr

structure Entry where
  path : List String
  kind : EntryKind

deriving DecidableEq, Repr

/-- The string `str(item.relative_to(firmware_dir))` that the matchers see. -/
def relStr (p : List String) : String := String.intercalate "/" p

def findEntry (st : List Entry) (p : List String) : Option Entry :=
  st.find? (fun e => e.path == p)

/-- Resolution of a path through symlink entries, `st` being the entries that
exist.  Python path predicates resolve symlinks fully; a symlink cycle
(`ELOOP`) makes them return `False`, which the fuel bound models. -/
def resolvePath (st : List Entry) : Nat → List String → Option Entry
  | 0, _ => none
  | fuel+1, p =>
      match findEntry st p with
      | some e =>
          match e.kind with
          | EntryKind.symlink t => resolvePath st fuel t
          | _ => some e
      | none => none

/-- `item.is_file()` at the moment the walk visits `e`, `st` being the entries
existing at that moment: true for a regular file and for a symlink whose fully
resolved target is an existing regular file.  (A regular file yielded by the
walk still exists when visited: the deletion pass only unlinks the entry it
has just yielded.) -/
def isFileNow (st : List Entry) (e : Entry) : Bool :=
  match e.kind with
  | EntryKind.file => true
  | EntryKind.symlink t =>
      match resolvePath st st.length t with
      | some e2 => e2.kind == EntryKind.file
      | none => false
  | _ => false

/-- `keep = any(p.search(rel_str) for p in patterns)` (firmware_minimizer.py:179). -/
def keepB (pats : List (List Tok)) (p : List String) : Bool :=
  pats.any (fun ts => searchAnchored ts (relStr p))

/-- Effect of `item.unlink()` on the set of existing entries. -/
def eraseP (st : List Entry) (p : List String) : List Entry :=
  st.filter (fun e => !(e.path == p))

/-- One iteration of the classification loop of `filter_firmware_files`
(firmware_minimizer.py:172-186): skip entries for which `is_file()` is false,
classify the rest by the matcher disjunction, and in apply mode unlink a
removed file at once (which is what makes later `is_file()` checks
state-dependent). -/
def filterStep (pats : List (List Tok)) (dryRun : Bool)
    (acc : List (List String) × List (List String) × List Entry) (e : Entry) :
    List (List String) × List (List String) × List Entry :=
  if isFileNow acc.2.2 e then
    if keepB pats e.path then (acc.1 ++ [e.path], acc.2.1, acc.2.2)
    else (acc.1, acc.2.1 ++ [e.path], if dryRun then acc.2.2 else eraseP acc.2.2 e.path)
  else acc

/-- The whole classification loop, visiting the entries of `T` in list order
(the `rglob` enumeration order) starting from the full tree as state. -/
def deleteFold (pats : List (List Tok)) (dryRun : Bool) (T : List Entry) :
    List (List String) × List (List String) × List Entry :=
  T.foldl (filterStep pats dryRun) ([], [], T)

/-- Code-point-wise comparison of two strings (as their character lists),
the order Python uses on path strings. -/
def charListLtB : List Char → List Char → Bool
  | [], [] => false
  | [], _ :: _ => true
  | _ :: _, [] => false
  | c :: cs, d :: ds => if c < d then true else if c = d then charListLtB cs ds else false

def strLtB (a b : String) : Bool := charListLtB a.data b.data

/-- Lexicographic comparison of segment paths, standing in for the comparison
that `sorted(firmware_dir.rglob("*"), reverse=True)` performs on path
strings.  The two orders can differ on unrelated paths, but agree on the only
property the pruning pass relies on: a strict descendant sorts strictly after
its ancestor, hence first in the reversed order. -/
def pathLtB : List String → List String → Bool
  | [], [] => false
  | [], _ :: _ => true
  | _ :: _, [] => false
  | a :: as, b :: bs => if strLtB a b then true else if a = b then pathLtB as bs else false

def insertDesc (x : List String) : List (List String) → List (List String)
  | [] => [x]
  | y :: ys => if pathLtB y x then x :: y :: ys else y :: insertDesc x ys

/-- `sorted(..., reverse=True)`: descending sort of the surviving paths. -/
def sortDesc : List (List String) → List (List String)
  | [] => []
  | p :: ps => insertDesc p (sortDesc ps)

/-- `any(dir_path.iterdir())`: does the directory at `p` still contain an
entry (immediate child) in state `st`? -/
def hasChildB (st : List Entry) (p : List String) : Bool :=
  st.any (fun e => e.path.length == p.length + 1 && p.isPrefixOf e.path)

/-- Where `is_dir()` leads for a symlink: the directory path its chain ends
at, if any. -/
def resolveDirPath (st : List Entry) (t : List String) : Option (List String) :=
  match resolvePath st st.length t with
  | some e =>
      match e.kind with
      | EntryKind.dir => some e.path
      | _ => none
  | none => none

/-- One iteration of the empty-directory pruning loop
(firmware_minimizer.py:195-197).  `dir_path.is_dir()` follows symlinks, so a
symlink to a directory passes the test; `iterdir` then lists the target; but
`rmdir` on the symlink itself raises `NotADirectoryError` (ENOTDIR), which no
handler in the program catches. -/
def pruneStep (acc : Except String (List Entry)) (p : List String) :
    Except String (List Entry) :=
  match acc with
  | Except.error m => Except.error m
  | Except.ok st =>
      match findEntry st p with
      | none => Except.ok st
      | some e =>
          match e.kind with
          | EntryKind.dir =>
              if hasChildB st p then Except.ok st else Except.ok (eraseP st p)
          | EntryKind.symlink t =>
              match resolveDirPath st t with
              | some d =>
                  if hasChildB st d then Except.ok st
                  else Except.error "NotADirectoryError: rmdir on a symlink"
              | none => Except.ok st
          | _ => Except.ok st

/-- The pruning pass: one deepest-first sweep over the entries surviving the
deletion pass. -/
def prune (st : List Entry) : Except String (List Entry) :=
  (sortDesc (st.map (fun e => e.path))).foldl pruneStep (Except.ok st)

/-- `filter_firmware_files` for a tree `T` (list order = enumeration order):
compile the patterns, classify (and in apply mode delete) the entries, and in
apply mode prune newly empty directories bottom-up. -/
def runFilter (drivers : List String) (dryRun : Bool) (T : List Entry) :
    Except String (List (List String) × List (List String) × List Entry) :=
  let res := deleteFold (_compile_patterns drivers) dryRun T
  if dryRun then Except.ok res
  else
    match prune res.2.2 with
    | Except.ok st2 => Except.ok (res.1, res.2.1, st2)
    | Except.error m => Except.error m

/-! ### Well-formedness of a tree -/

def isSymKind : EntryKind → Bool
  | EntryKind.symlink _ => true
  | _ => false

def PathNodup (T : List Entry) : Prop := (T.map (fun e => e.path)).Nodup

def NoSymlinkEntry (T : List Entry) : Prop := ∀ e ∈ T, isSymKind e.kind = false

def NonEmptyPaths (T : List Entry) : Prop := ∀ e ∈ T, e.path ≠ []

/-- Every proper nonempty prefix of an entry's path is a directory entry. -/
def PrefixClosedT (T : List Entry) : Prop :=
  ∀ e ∈ T, ∀ n ∈ List.range e.path.length, n ≠ 0 →
    ∃ d ∈ T, d.path = e.path.take n ∧ d.kind = EntryKind.dir

def TreeWF (T : List Entry) : Prop := PathNodup T ∧ NonEmptyPaths T ∧ PrefixClosedT T

instance (T : List Entry) : Decidable (PathNodup T) := by unfold PathNodup; exact inferInstance

instance (T : List Entry) : Decidable (NoSymlinkEntry T) := by
  unfold NoSymlinkEntry; exact inferInstance

instance (T : List Entry) : Decidable (NonEmptyPaths T) := by
  unfold NonEmptyPaths; exact inferInstance

instance (T : List Entry) : Decidable (PrefixClosedT T) := by
  unfold PrefixClosedT; exact inferInstance

instance (T : List Entry) : Decidable (TreeWF T) := by unfold TreeWF; exact inferInstance

/-! ### Path order lemmas for the pruning sweep -/

/-- Strict-descendant test: `a` is a proper ancestor prefix of `b`. -/
def sPreB (a b : List String) : Bool := a.isPrefixOf b && !(a == b)

/-! ### Characterization of the pruning sweep on symlink-free trees -/

/-- Does some non-directory entry of `S` lie strictly below `p`? -/
def liveB (S : List Entry) (p : List String) : Bool :=
  S.any (fun e => !(e.kind == EntryKind.dir) && sPreB p e.path)

/-- Bookkeeping predicate for the sweep over `S`: an entry is still present
while the paths in `rem` remain to be processed iff it is not a directory
that was already swept (path not in `rem`) and found transitively empty
(no live non-directory descendant). -/
def outPredB (S : List Entry) (rem : List (List String)) (e : Entry) : Bool :=
  if e.kind = EntryKind.dir then (rem.contains e.path || liveB S e.path) else true

instance exceptDecEq {e a : Type} [DecidableEq e] [DecidableEq a] :
    DecidableEq (Except e a) := fun x y =>
  match x, y with
  | Except.ok u, Except.ok v =>
      if h : u = v then isTrue (by rw [h])
      else isFalse (fun hc => h (Except.ok.inj hc))
  | Except.error u, Except.error v =>
      if h : u = v then isTrue (by rw [h])
      else isFalse (fun hc => h (Except.error.inj hc))
  | Except.ok _, Except.error _ => isFalse (fun hc => Except.noConfusion hc)
  | Except.error _, Except.ok _ => isFalse (fun hc => Except.noConfusion hc)

/-- Survivors of the deletion pass on a symlink-free tree: everything except
regular files that match no pattern. -/
def survPred (pats : List (List Tok)) (e : Entry) : Bool :=
  !(e.kind == EntryKind.file && !keepB pats e.path)

/-- Concrete tree used by witnesses: one matching file, and a directory whose
only file matches nothing. -/
def wTree5 : List Entry :=
  [⟨["iwl.ucode"], EntryKind.file⟩, ⟨["rtl"], EntryKind.dir⟩,
   ⟨["rtl", "a.fw"], EntryKind.file⟩]

/-- The two-entry tree with a regular file `t` and a symlink `l` whose target
is `t`, enumerated with `t` first. -/
def cTreeTL : List Entry :=
  [⟨["t"], EntryKind.file⟩, ⟨["l"], EntryKind.symlink ["t"]⟩]

/-! ### Claim C9: configuration without a `drivers` key -/

/-- The parsed YAML documents relevant to `read_drivers_yaml`. -/
inductive Yaml where
  | nullv : Yaml
  | boolv : Bool → Yaml
  | intv : Int → Yaml
  | str : String → Yaml
  | listv : List Yaml → Yaml
  | dict : List (String × Yaml) → Yaml

/-- Python falsiness of a loaded YAML value (`config or {}`). -/
def yamlFalsy : Yaml → Bool
  | Yaml.nullv => true
  | Yaml.boolv b => !b
  | Yaml.intv n => n == 0
  | Yaml.str s => s == ""
  | Yaml.listv l => l.isEmpty
  | Yaml.dict kvs => kvs.isEmpty

def lookupKey : List (String × Yaml) → String → Option Yaml
  | [], _ => none
  | (k, v) :: rest, key => if k == key then some v else lookupKey rest key

/-- `str(d)` for the scalar values that can appear in a `drivers` list. -/
def yamlToStr : Yaml → String
  | Yaml.nullv => "None"
  | Yaml.boolv true => "True"
  | Yaml.boolv false => "False"
  | Yaml.intv n => toString n
  | Yaml.str s => s
  | Yaml.listv _ => "<list>"
  | Yaml.dict _ => "<dict>"

/-- `read_drivers_yaml` (firmware_minimizer.py:85-105) on an already parsed
document: `config = yaml.safe_load(f) or {}` (an empty file loads as `None`,
any falsy value becomes `{}`), then `config.get("drivers", [])` — which on a
truthy non-mapping raises an uncaught `AttributeError` — then the
`isinstance(drivers, list)` check, then `[str(d) for d in drivers]`. -/
def read_drivers_yaml (doc : Yaml) : Except String (List String) :=
  match (if yamlFalsy doc then Yaml.dict [] else doc) with
  | Yaml.dict kvs =>
      match lookupKey kvs "drivers" with
      | none => Except.ok []
      | some (Yaml.listv items) => Except.ok (items.map yamlToStr)
      | some _ => Except.error "drivers.yaml: 'drivers' moet een lijst zijn."
  | _ => Except.error "AttributeError: 'get' on non-mapping"

/-! ### External commands: `run_command`, `extract_rpm`, `create_rpm`
(firmware_minimizer.py:34-56, 108-134, 240-304) -/

/-- Observed outcome of one external command invocation. -/
structure CmdResult where
  exitCode : Int
  stdout : String
  stderr : String

deriving DecidableEq, Repr

/-- The `msg` list that `run_command` builds before joining it with newlines
into the `FirmwareMinimizerError` message (firmware_minimizer.py:48-56). -/
def runCmdMsgList (cmd : List String) (r : CmdResult) : List String :=
  ["Commando mislukt: " ++ String.intercalate " " cmd,
   "Exit code: " ++ toString r.exitCode]
  ++ (if r.stdout ≠ "" then ["STDOUT:\n" ++ r.stdout] else [])
  ++ (if r.stderr ≠ "" then ["STDERR:\n" ++ r.stderr] else [])

/-- `run_command`: `subprocess.run(..., capture_output=True, check=True)`
raises on a non-zero exit; the wrapper re-raises a `FirmwareMinimizerError`
whose message is the newline-join of `runCmdMsgList`. -/
def run_command (cmd : List String) (r : CmdResult) : Except String CmdResult :=
  if r.exitCode = 0 then Except.ok r
  else Except.error (String.intercalate "\n" (runCmdMsgList cmd r))

/-- The rendering of a `CalledProcessError` (`str(e)`), which does not include
the captured stdout/stderr. -/
def calledProcessErrorStr (cmd : List String) (code : Int) : String :=
  "Command " ++ String.intercalate " " cmd ++ " returned non-zero exit status "
    ++ toString code ++ "."

/-- `extract_rpm` (firmware_minimizer.py:108-134): `rpm2cpio` runs through
`Popen` and its exit status is only `wait()`ed for, never checked — the first
parameter is therefore never consulted; only a `CalledProcessError` from the
checked `cpio` run is caught and wrapped, with a message that does not
include the captured output. -/
def extract_rpm (r2cRes : CmdResult) (cpioRes : CmdResult) : Except String Unit :=
  if cpioRes.exitCode = 0 then Except.ok ()
  else Except.error ("Fout bij extraheren van RPM: " ++
    calledProcessErrorStr ["cpio", "-idmv"] cpioRes.exitCode)

/-- The workflow order: extraction precedes filtering, and an extraction
error halts the run before the filter ever executes. -/
def extract_then_filter (r2cRes cpioRes : CmdResult) (drivers : List String)
    (dr : Bool) (T : List Entry) :
    Except String (List (List String) × List (List String) × List Entry) :=
  match extract_rpm r2cRes cpioRes with
  | Except.ok _ => runFilter drivers dr T
  | Except.error m => Except.error m

/-- `rpmbuild -bb --buildroot <extract_dir> <spec>` (firmware_minimizer.py:258). -/
def rpmbuildCmd (buildRoot specFile : String) : List String :=
  ["rpmbuild", "-bb", "--buildroot", buildRoot, specFile]

/-- The fpm fallback invocation (firmware_minimizer.py:278-297): same input
tree (`-C extract_dir`), same caller-requested output path (`-p output_rpm`). -/
def fpmCmd (extractDir outputRpm version : String) : List String :=
  ["fpm", "-s", "dir", "-t", "rpm", "-n", "linux-firmware-minimal", "-v", version,
   "--prefix", "/", "-C", extractDir, "-p", outputRpm, "lib/firmware"]

def specFileName : String := "linux-firmware-minimal.spec"

/-- Environment a `create_rpm` run observes: the outcome of the `rpmbuild`
invocation, whether `~/rpmbuild/RPMS` exists, the sorted list of
`linux-firmware-minimal-*.rpm` files found under it, and the outcome of the
`fpm` invocation (if reached). -/
structure PackEnv where
  rpmbuildRes : CmdResult
  rpmsDirExists : Bool
  builtRpms : List String
  fpmRes : CmdResult

deriving DecidableEq, Repr

/-- `create_rpm` (firmware_minimizer.py:240-304): try `rpmbuild`; on success
look for the newest built RPM under `~/rpmbuild/RPMS` (`built_rpms[-1]`),
falling back to returning the requested output path if none is found; on
`rpmbuild` failure invoke `fpm` over the same tree with the same output path;
if that fails too, raise.  Returns the invoked commands and the outcome. -/
def create_rpm (env : PackEnv) (extractDir outputRpm version : String) :
    List (List String) × Except String String :=
  match run_command (rpmbuildCmd extractDir specFileName) env.rpmbuildRes with
  | Except.ok _ =>
      match (if env.rpmsDirExists then env.builtRpms.getLast? else none) with
      | some p => ([rpmbuildCmd extractDir specFileName], Except.ok p)
      | none => ([rpmbuildCmd extractDir specFileName], Except.ok outputRpm)
  | Except.error _ =>
      match run_command (fpmCmd extractDir outputRpm version) env.fpmRes with
      | Except.ok _ =>
          ([rpmbuildCmd extractDir specFileName, fpmCmd extractDir outputRpm version],
           Except.ok outputRpm)
      | Except.error _ =>
          ([rpmbuildCmd extractDir specFileName, fpmCmd extractDir outputRpm version],
           Except.error
             "Kon geen RPM maken met rpmbuild of fpm. Installeer eventueel fpm: gem install fpm")

/-- Exit status of the workflow's packaging stage: `main` catches the raised
`FirmwareMinimizerError` and exits 1; otherwise the run reports success. -/
def packagingExit (env : PackEnv) (extractDir outputRpm version : String) : Int :=
  match (create_rpm env extractDir outputRpm version).2 with
  | Except.ok _ => 0
  | Except.error _ => 1
theorem tokMatch_eq_specGlobMatch :
    ∀ (ts : List Tok) (ds : List Char), '\n' ∉ ds → tokMatch ts ds = specGlobMatch ts ds := by
  intro ts
  induction ts with
  | nil => intro ds _; rfl
  | cons t ts ih =>
      cases t with
      | lit c =>
          intro ds h
          cases ds with
          | nil => rfl
          | cons d ds2 =>
              simp only [List.mem_cons, not_or] at h
              simp [tokMatch, specGlobMatch, ih ds2 h.2]
      | qmark =>
          intro ds h
          cases ds with
          | nil => rfl
          | cons d ds2 =>
              simp only [List.mem_cons, not_or] at h
              have hd : (d == '\n') = false := by
                simp only [beq_eq_false_iff_ne, ne_eq]
                exact fun hc => h.1 hc.symm
              simp [tokMatch, specGlobMatch, hd, ih ds2 h.2]
      | star =>
          intro ds h
          induction ds with
          | nil => simp [tokMatch, specGlobMatch, starMatch, specStarMatch, ih [] (by simp)]
          | cons d ds2 ihd =>
              simp only [List.mem_cons, not_or] at h
              have hd : (d == '\n') = false := by
                simp only [beq_eq_false_iff_ne, ne_eq]
                exact fun hc => h.1 hc.symm
              have h2 : '\n' ∉ d :: ds2 := by simp only [List.mem_cons, not_or]; exact h
              have hrec := ihd h.2
              simp only [tokMatch, specGlobMatch, starMatch, specStarMatch] at hrec ⊢
              rw [ih (d :: ds2) h2, hd, hrec]
              simp

theorem mem_of_getLastEq : ∀ (l : List Char) (c : Char), l.getLast? = some c → c ∈ l := by
  intro l
  induction l with
  | nil => intro c h; simp at h
  | cons a t ih =>
      intro c h
      cases t with
      | nil => simp [List.getLast?_singleton] at h; simp [h]
      | cons b u =>
          rw [List.getLast?_cons_cons] at h
          exact List.mem_cons_of_mem _ (ih c h)

/-- C1 (amended): for every raw driver pattern and every candidate
relative-path string that contains no newline character, the compiled matcher
produced by `_compile_patterns` accepts the candidate if and only if the
pattern matches the whole string under the spec's wildcard semantics (`*`
matches any sequence of characters including path separators, `?` matches
exactly one character, every other character matches itself literally, the
match anchored at both ends).  (On strings with newlines the Python regex
semantics deviate: `$` also matches just before a trailing newline, and the
`.`/`.*` produced for `?`/`*` do not match a newline character.) -/
theorem c1_compiled_matcher_anchored_glob (pat s : String) (h : '\n' ∉ s.data) :
    searchAnchored (compileDriver pat) s = specGlobMatch (compileDriver pat) s.data := by
  unfold searchAnchored
  rw [tokMatch_eq_specGlobMatch _ _ h]
  cases hl : s.data.getLast? with
  | none => simp
  | some c =>
      have hc : (c == '\n') = false := by
        simp only [beq_eq_false_iff_ne, ne_eq]
        exact fun hcc => h (hcc ▸ mem_of_getLastEq _ _ hl)
      simp [hc]

theorem c1_compiled_matcher_anchored_glob_witness :
    '\n' ∉ "i915/sub/bar.bin".data ∧
    searchAnchored (compileDriver "i915/*") "i915/sub/bar.bin" =
      specGlobMatch (compileDriver "i915/*") "i915/sub/bar.bin".data :=
  ⟨by decide, c1_compiled_matcher_anchored_glob "i915/*" "i915/sub/bar.bin" (by decide)⟩

/-- C1 counterexample: pattern `foo` against candidate path `"foo\n"` (a legal
file name on Linux).  The compiled matcher accepts it (`$` matches before the
trailing newline under Python `re` semantics) although the pattern does not
match the whole string under the claimed wildcard semantics, so the claimed
if-and-only-if fails at this input. -/
theorem c1_trailing_newline_counterexample :
    searchAnchored (compileDriver "foo") "foo\n" = true ∧
    specGlobMatch (compileDriver "foo") "foo\n".data = false := by
  constructor
  · decide
  · decide

/-! ### Lookup and resolution lemmas -/

theorem mem_of_findEntry {st : List Entry} {p : List String} {e : Entry}
    (h : findEntry st p = some e) : e ∈ st ∧ e.path = p := by
  unfold findEntry at h
  have h1 := List.mem_of_find?_eq_some h
  have h2 := List.find?_some h
  simp only [beq_iff_eq] at h2
  exact ⟨h1, h2⟩

theorem findEntry_eq_some_of_mem {st : List Entry} {e : Entry}
    (hnd : PathNodup st) (hmem : e ∈ st) : findEntry st e.path = some e := by
  unfold findEntry
  induction st with
  | nil => simp at hmem
  | cons a t ih =>
      unfold PathNodup at hnd
      simp only [List.map_cons, List.nodup_cons] at hnd
      rcases List.mem_cons.mp hmem with h | h
      · subst h; simp [List.find?_cons]
      · have hne : (a.path == e.path) = false := by
          simp only [beq_eq_false_iff_ne, ne_eq]
          intro hc
          exact hnd.1 (hc ▸ List.mem_map_of_mem (fun x => x.path) h)
        simp [List.find?_cons, hne]
        exact ih hnd.2 h

theorem findEntry_eq_none {st : List Entry} {p : List String}
    (h : ∀ e ∈ st, e.path ≠ p) : findEntry st p = none := by
  unfold findEntry
  rw [List.find?_eq_none]
  intro e he
  simp only [beq_eq_false_iff_ne, ne_eq, Bool.not_eq_true, beq_eq_false_iff_ne]
  exact h e he

theorem pathNodup_sublist {s1 s2 : List Entry} (h : s1.Sublist s2) (hnd : PathNodup s2) :
    PathNodup s1 :=
  List.Nodup.sublist (List.Sublist.map (fun e => e.path) h) hnd

theorem eraseP_sublist (st : List Entry) (p : List String) : (eraseP st p).Sublist st :=
  List.filter_sublist st

theorem resolvePath_mono {s1 s2 : List Entry} (hsub : ∀ x ∈ s1, x ∈ s2)
    (hnd : PathNodup s2) :
    ∀ (f1 f2 : Nat), f1 ≤ f2 → ∀ (p : List String) (e : Entry),
      resolvePath s1 f1 p = some e → resolvePath s2 f2 p = some e := by
  intro f1
  induction f1 with
  | zero => intro f2 _ p e h; simp [resolvePath] at h
  | succ n ih =>
      intro f2 hle p e h
      obtain ⟨m, rfl⟩ : ∃ m, f2 = m + 1 := ⟨f2 - 1, by omega⟩
      simp only [resolvePath] at h ⊢
      cases hf : findEntry s1 p with
      | none => simp [hf] at h
      | some e1 =>
          simp only [hf] at h
          obtain ⟨hmem, hp⟩ := mem_of_findEntry hf
          have hf2 : findEntry s2 p = some e1 := hp ▸ findEntry_eq_some_of_mem hnd (hsub e1 hmem)
          simp only [hf2]
          cases hk : e1.kind with
          | symlink t =>
              simp only [hk] at h ⊢
              exact ih m (by omega) t e h
          | file => simp only [hk] at h ⊢; exact h
          | dir => simp only [hk] at h ⊢; exact h
          | other => simp only [hk] at h ⊢; exact h

theorem isFileNow_mono {s1 s2 : List Entry} (hsub : s1.Sublist s2) (hnd : PathNodup s2)
    {e : Entry} (h : isFileNow s1 e = true) : isFileNow s2 e = true := by
  unfold isFileNow at h ⊢
  cases hk : e.kind with
  | file => simp [hk]
  | dir => simp [hk] at h
  | other => simp [hk] at h
  | symlink t =>
      simp only [hk] at h ⊢
      cases hr : resolvePath s1 s1.length t with
      | none => simp [hr] at h
      | some e2 =>
          simp only [hr] at h
          have h2 := resolvePath_mono (fun x hx => hsub.mem hx) hnd s1.length s2.length
            hsub.length_le t e2 hr
          simp only [h2]
          exact h

theorem findEntry_perm {s1 s2 : List Entry} (hperm : s1.Perm s2) (hnd : PathNodup s2)
    (p : List String) : findEntry s1 p = findEntry s2 p := by
  cases hf : findEntry s1 p with
  | some e =>
      obtain ⟨hmem, hp⟩ := mem_of_findEntry hf
      exact (hp ▸ findEntry_eq_some_of_mem hnd (hperm.mem_iff.mp hmem)).symm
  | none =>
      cases hf2 : findEntry s2 p with
      | none => rfl
      | some e2 =>
          obtain ⟨hmem2, hp2⟩ := mem_of_findEntry hf2
          unfold findEntry at hf
          rw [List.find?_eq_none] at hf
          exact absurd (by simp [hp2]) (hf e2 (hperm.mem_iff.mpr hmem2))

theorem resolvePath_perm {s1 s2 : List Entry} (hperm : s1.Perm s2) (hnd : PathNodup s2) :
    ∀ (f : Nat) (p : List String), resolvePath s1 f p = resolvePath s2 f p := by
  intro f
  induction f with
  | zero => intro p; rfl
  | succ n ih =>
      intro p
      simp only [resolvePath, findEntry_perm hperm hnd p]
      cases hf : findEntry s2 p with
      | none => simp
      | some e =>
          simp only []
          cases hk : e.kind with
          | symlink t => simp only [hk]; exact ih t
          | file => simp only [hk]
          | dir => simp only [hk]
          | other => simp only [hk]

theorem isFileNow_perm {s1 s2 : List Entry} (hperm : s1.Perm s2) (hnd : PathNodup s2)
    (e : Entry) : isFileNow s1 e = isFileNow s2 e := by
  unfold isFileNow
  cases hk : e.kind with
  | file => rfl
  | dir => rfl
  | other => rfl
  | symlink t => simp only [hk, hperm.length_eq, resolvePath_perm hperm hnd]

theorem isFileNow_nosym {st : List Entry} {e : Entry} (h : isSymKind e.kind = false) :
    isFileNow st e = (e.kind == EntryKind.file) := by
  unfold isFileNow
  cases hk : e.kind with
  | file => rfl
  | dir => rfl
  | other => rfl
  | symlink t => rw [hk] at h; simp [isSymKind] at h

/-! ### Lemmas about the classification loop -/

theorem filterStep_eq (pats : List (List Tok)) (dr : Bool) (k r : List (List String))
    (st : List Entry) (e : Entry) :
    filterStep pats dr (k, r, st) e =
      if isFileNow st e then
        if keepB pats e.path then (k ++ [e.path], r, st)
        else (k, r ++ [e.path], if dr then st else eraseP st e.path)
      else (k, r, st) := rfl

theorem not_mem_eraseP (st : List Entry) (p : List String) :
    ∀ x ∈ eraseP st p, x.path ≠ p := by
  intro x hx
  unfold eraseP at hx
  have := List.of_mem_filter hx
  simpa using this

theorem mem_eraseP_of_ne {st : List Entry} {x : Entry} (hx : x ∈ st) {p : List String}
    (hne : x.path ≠ p) : x ∈ eraseP st p := by
  unfold eraseP
  exact List.mem_filter.mpr ⟨hx, by simpa using hne⟩

theorem filterStep_state_sublist (pats : List (List Tok)) (dr : Bool)
    (acc : List (List String) × List (List String) × List Entry) (e : Entry) :
    (filterStep pats dr acc e).2.2.Sublist acc.2.2 := by
  unfold filterStep
  split
  · split
    · exact List.Sublist.refl _
    · simp only []
      split
      · exact List.Sublist.refl _
      · exact eraseP_sublist _ _
  · exact List.Sublist.refl _

theorem foldl_filterStep_state_sublist (pats : List (List Tok)) (dr : Bool) :
    ∀ (l : List Entry) (acc : List (List String) × List (List String) × List Entry),
      ((l.foldl (filterStep pats dr) acc).2.2).Sublist acc.2.2 := by
  intro l
  induction l with
  | nil => intro acc; exact List.Sublist.refl _
  | cons e rest ih =>
      intro acc
      exact (ih (filterStep pats dr acc e)).trans (filterStep_state_sublist pats dr acc e)

theorem filterStep_kept_extend (pats : List (List Tok)) (dr : Bool)
    (acc : List (List String) × List (List String) × List Entry) (e : Entry) :
    ∃ t, (filterStep pats dr acc e).1 = acc.1 ++ t := by
  unfold filterStep
  split
  · split
    · exact ⟨[e.path], rfl⟩
    · exact ⟨[], by simp⟩
  · exact ⟨[], by simp⟩

theorem filterStep_removed_extend (pats : List (List Tok)) (dr : Bool)
    (acc : List (List String) × List (List String) × List Entry) (e : Entry) :
    ∃ t, (filterStep pats dr acc e).2.1 = acc.2.1 ++ t := by
  unfold filterStep
  split
  · split
    · exact ⟨[], by simp⟩
    · exact ⟨[e.path], rfl⟩
  · exact ⟨[], by simp⟩

theorem foldl_filterStep_kept_extend (pats : List (List Tok)) (dr : Bool) :
    ∀ (l : List Entry) (acc : List (List String) × List (List String) × List Entry),
      ∃ t, (l.foldl (filterStep pats dr) acc).1 = acc.1 ++ t := by
  intro l
  induction l with
  | nil => intro acc; exact ⟨[], by simp⟩
  | cons e rest ih =>
      intro acc
      obtain ⟨t1, h1⟩ := filterStep_kept_extend pats dr acc e
      obtain ⟨t2, h2⟩ := ih (filterStep pats dr acc e)
      exact ⟨t1 ++ t2, by simp [h2, h1]⟩

theorem foldl_filterStep_removed_extend (pats : List (List Tok)) (dr : Bool) :
    ∀ (l : List Entry) (acc : List (List String) × List (List String) × List Entry),
      ∃ t, (l.foldl (filterStep pats dr) acc).2.1 = acc.2.1 ++ t := by
  intro l
  induction l with
  | nil => intro acc; exact ⟨[], by simp⟩
  | cons e rest ih =>
      intro acc
      obtain ⟨t1, h1⟩ := filterStep_removed_extend pats dr acc e
      obtain ⟨t2, h2⟩ := ih (filterStep pats dr acc e)
      exact ⟨t1 ++ t2, by simp [h2, h1]⟩

theorem kind_of_isFileNow {st : List Entry} {e : Entry} (h : isFileNow st e = true) :
    e.kind = EntryKind.file ∨ isSymKind e.kind = true := by
  unfold isFileNow at h
  cases hk : e.kind with
  | file => exact Or.inl rfl
  | symlink t => exact Or.inr (by simp [isSymKind])
  | dir => rw [hk] at h; simp at h
  | other => rw [hk] at h; simp at h

theorem filterStep_kept_origin {pats : List (List Tok)} {dr : Bool}
    {acc : List (List String) × List (List String) × List Entry} {e : Entry}
    {p : List String} (h : p ∈ (filterStep pats dr acc e).1) :
    p ∈ acc.1 ∨ (p = e.path ∧ isFileNow acc.2.2 e = true) := by
  unfold filterStep at h
  by_cases hf : isFileNow acc.2.2 e
  · simp only [hf, if_true] at h
    by_cases hk : keepB pats e.path
    · simp only [hk, if_true] at h
      rcases List.mem_append.mp h with h1 | h1
      · exact Or.inl h1
      · exact Or.inr ⟨by simpa using h1, hf⟩
    · simp only [hk, if_false] at h
      exact Or.inl h
  · simp only [Bool.not_eq_true] at hf
    simp [hf] at h
    exact Or.inl h

theorem filterStep_removed_origin {pats : List (List Tok)} {dr : Bool}
    {acc : List (List String) × List (List String) × List Entry} {e : Entry}
    {p : List String} (h : p ∈ (filterStep pats dr acc e).2.1) :
    p ∈ acc.2.1 ∨ (p = e.path ∧ isFileNow acc.2.2 e = true) := by
  unfold filterStep at h
  by_cases hf : isFileNow acc.2.2 e
  · simp only [hf, if_true] at h
    by_cases hk : keepB pats e.path
    · simp only [hk, if_true] at h
      exact Or.inl h
    · simp only [hk, if_false] at h
      rcases List.mem_append.mp h with h1 | h1
      · exact Or.inl h1
      · exact Or.inr ⟨by simpa using h1, hf⟩
  · simp only [Bool.not_eq_true] at hf
    simp [hf] at h
    exact Or.inl h

theorem foldl_filterStep_kept_origin (pats : List (List Tok)) (dr : Bool) :
    ∀ (l : List Entry) (acc : List (List String) × List (List String) × List Entry)
      (p : List String), p ∈ (l.foldl (filterStep pats dr) acc).1 →
      p ∈ acc.1 ∨ ∃ e ∈ l, e.path = p ∧
        (e.kind = EntryKind.file ∨ isSymKind e.kind = true) := by
  intro l
  induction l with
  | nil => intro acc p h; exact Or.inl h
  | cons e rest ih =>
      intro acc p h
      rcases ih (filterStep pats dr acc e) p h with h1 | ⟨e2, he2, hp2, hk2⟩
      · rcases filterStep_kept_origin h1 with h2 | ⟨hp, hf⟩
        · exact Or.inl h2
        · exact Or.inr ⟨e, List.mem_cons_self e rest, hp.symm, kind_of_isFileNow hf⟩
      · exact Or.inr ⟨e2, List.mem_cons_of_mem e he2, hp2, hk2⟩

theorem foldl_filterStep_removed_origin (pats : List (List Tok)) (dr : Bool) :
    ∀ (l : List Entry) (acc : List (List String) × List (List String) × List Entry)
      (p : List String), p ∈ (l.foldl (filterStep pats dr) acc).2.1 →
      p ∈ acc.2.1 ∨ ∃ e ∈ l, e.path = p ∧
        (e.kind = EntryKind.file ∨ isSymKind e.kind = true) := by
  intro l
  induction l with
  | nil => intro acc p h; exact Or.inl h
  | cons e rest ih =>
      intro acc p h
      rcases ih (filterStep pats dr acc e) p h with h1 | ⟨e2, he2, hp2, hk2⟩
      · rcases filterStep_removed_origin h1 with h2 | ⟨hp, hf⟩
        · exact Or.inl h2
        · exact Or.inr ⟨e, List.mem_cons_self e rest, hp.symm, kind_of_isFileNow hf⟩
      · exact Or.inr ⟨e2, List.mem_cons_of_mem e he2, hp2, hk2⟩

theorem isFileNow_of_dir_or_other {st : List Entry} {e : Entry}
    (h : e.kind = EntryKind.dir ∨ e.kind = EntryKind.other) : isFileNow st e = false := by
  unfold isFileNow
  rcases h with h | h <;> rw [h]

theorem foldl_filterStep_keeps_nonfile (pats : List (List Tok)) (dr : Bool) :
    ∀ (l : List Entry) (acc : List (List String) × List (List String) × List Entry)
      (x : Entry), x ∈ acc.2.2 → (x.kind = EntryKind.dir ∨ x.kind = EntryKind.other) →
      (∀ e ∈ l, e.path = x.path → e = x) →
      x ∈ (l.foldl (filterStep pats dr) acc).2.2 := by
  intro l
  induction l with
  | nil => intro acc x hx _ _; exact hx
  | cons e rest ih =>
      intro acc x hx hk hcoll
      apply ih (filterStep pats dr acc e) x _ hk
      · intro e2 he2 hp2
        exact hcoll e2 (List.mem_cons_of_mem e he2) hp2
      · unfold filterStep
        split
        · split
          · exact hx
          · simp only []
            split
            · exact hx
            · rename_i hf _ _
              apply mem_eraseP_of_ne hx
              intro hp
              have hex : e = x := hcoll e (List.mem_cons_self e rest) hp.symm
              rw [hex] at hf
              rw [isFileNow_of_dir_or_other hk] at hf
              simp at hf
        · exact hx

theorem foldl_filterStep_dry (pats : List (List Tok)) :
    ∀ (l : List Entry) (k r : List (List String)) (st : List Entry),
      l.foldl (filterStep pats true) (k, r, st) =
        (k ++ (l.filter (fun e => isFileNow st e && keepB pats e.path)).map (fun e => e.path),
         r ++ (l.filter (fun e => isFileNow st e && !keepB pats e.path)).map (fun e => e.path),
         st) := by
  intro l
  induction l with
  | nil => intro k r st; simp
  | cons e rest ih =>
      intro k r st
      simp only [List.foldl_cons, filterStep_eq]
      by_cases hf : isFileNow st e = true
      · by_cases hk : keepB pats e.path = true
        · rw [if_pos hf, if_pos hk, ih (k ++ [e.path]) r st]
          simp [List.filter_cons, hf, hk]
        · have hk2 : keepB pats e.path = false := by simpa using hk
          rw [if_pos hf, if_neg hk]
          simp only [if_true, ite_true]
          rw [ih k (r ++ [e.path]) st]
          simp [List.filter_cons, hf, hk2]
      · have hf2 : isFileNow st e = false := by simpa using hf
        rw [if_neg hf, ih k r st]
        simp [List.filter_cons, hf2]

theorem foldl_filterStep_final_matched (pats : List (List Tok)) :
    ∀ (l : List Entry) (acc : List (List String) × List (List String) × List Entry),
      PathNodup acc.2.2 → ∀ e ∈ l,
      e ∈ (l.foldl (filterStep pats false) acc).2.2 →
      isFileNow (l.foldl (filterStep pats false) acc).2.2 e = true →
      keepB pats e.path = true := by
  intro l
  induction l with
  | nil => intro acc _ e he; simp at he
  | cons e0 rest ih =>
      intro acc hnd e he hfin hisf
      have hnd2 : PathNodup (filterStep pats false acc e0).2.2 :=
        pathNodup_sublist (filterStep_state_sublist pats false acc e0) hnd
      rcases List.mem_cons.mp he with rfl | hrest
      · -- e is the entry visited at this step
        have hsubR : ((rest.foldl (filterStep pats false) (filterStep pats false acc e)).2.2).Sublist
            (filterStep pats false acc e).2.2 :=
          foldl_filterStep_state_sublist pats false rest _
        have hsubA : ((rest.foldl (filterStep pats false) (filterStep pats false acc e)).2.2).Sublist
            acc.2.2 := hsubR.trans (filterStep_state_sublist pats false acc e)
        by_cases hc : isFileNow acc.2.2 e = true
        · by_cases hk : keepB pats e.path = true
          · exact hk
          · -- e was classified and unmatched, hence erased: it cannot be in the final state
            have hk2 : keepB pats e.path = false := by simpa using hk
            have hstep : (filterStep pats false acc e).2.2 = eraseP acc.2.2 e.path := by
              unfold filterStep
              rw [if_pos hc, if_neg (by simp [hk2])]
              simp
            exact absurd rfl
              (not_mem_eraseP acc.2.2 e.path e (hstep ▸ hsubR.mem hfin))
        · -- e was not classified at its visit; monotonicity contradicts hisf
          have : isFileNow acc.2.2 e = true := isFileNow_mono hsubA hnd hisf
          exact absurd this hc
      · exact ih (filterStep pats false acc e0) hnd2 e hrest hfin hisf

theorem foldl_filterStep_noremove (pats : List (List Tok)) :
    ∀ (l : List Entry) (k r : List (List String)) (st : List Entry),
      (∀ e ∈ l, isFileNow st e = true → keepB pats e.path = true) →
      l.foldl (filterStep pats false) (k, r, st) =
        (k ++ (l.filter (fun e => isFileNow st e)).map (fun e => e.path), r, st) := by
  intro l
  induction l with
  | nil => intro k r st _; simp
  | cons e rest ih =>
      intro k r st hall
      simp only [List.foldl_cons, filterStep_eq]
      by_cases hf : isFileNow st e = true
      · have hk : keepB pats e.path = true := hall e (List.mem_cons_self e rest) hf
        rw [if_pos hf, if_pos hk,
          ih (k ++ [e.path]) r st (fun e2 he2 => hall e2 (List.mem_cons_of_mem e he2))]
        simp [List.filter_cons, hf]
      · have hf2 : isFileNow st e = false := by simpa using hf
        rw [if_neg hf, ih k r st (fun e2 he2 => hall e2 (List.mem_cons_of_mem e he2))]
        simp [List.filter_cons, hf2]

theorem mem_kept_of_mem_acc (pats : List (List Tok)) (dr : Bool) (l : List Entry)
    (acc : List (List String) × List (List String) × List Entry) {p : List String}
    (h : p ∈ acc.1) : p ∈ (l.foldl (filterStep pats dr) acc).1 := by
  obtain ⟨t, ht⟩ := foldl_filterStep_kept_extend pats dr l acc
  rw [ht]
  exact List.mem_append_left t h

theorem mem_removed_of_mem_acc (pats : List (List Tok)) (dr : Bool) (l : List Entry)
    (acc : List (List String) × List (List String) × List Entry) {p : List String}
    (h : p ∈ acc.2.1) : p ∈ (l.foldl (filterStep pats dr) acc).2.1 := by
  obtain ⟨t, ht⟩ := foldl_filterStep_removed_extend pats dr l acc
  rw [ht]
  exact List.mem_append_left t h

theorem foldl_filterStep_file_classified (pats : List (List Tok)) (dr : Bool) :
    ∀ (l : List Entry) (acc : List (List String) × List (List String) × List Entry)
      (e : Entry), e ∈ l → e.kind = EntryKind.file →
      (keepB pats e.path = true → e.path ∈ (l.foldl (filterStep pats dr) acc).1) ∧
      (keepB pats e.path = false → e.path ∈ (l.foldl (filterStep pats dr) acc).2.1) := by
  intro l
  induction l with
  | nil => intro acc e he; simp at he
  | cons e0 rest ih =>
      intro acc e he hkind
      rcases List.mem_cons.mp he with rfl | hrest
      · have hf : isFileNow acc.2.2 e = true := by unfold isFileNow; rw [hkind]
        constructor
        · intro hk
          simp only [List.foldl_cons]
          apply mem_kept_of_mem_acc pats dr rest (filterStep pats dr acc e)
          unfold filterStep
          rw [if_pos hf, if_pos hk]
          simp
        · intro hk
          simp only [List.foldl_cons]
          apply mem_removed_of_mem_acc pats dr rest (filterStep pats dr acc e)
          unfold filterStep
          rw [if_pos hf, if_neg (by simp [hk])]
          simp
      · simp only [List.foldl_cons]
        exact ih (filterStep pats dr acc e0) e hrest hkind

theorem foldl_filterStep_nosym (pats : List (List Tok)) :
    ∀ (l : List Entry) (k r : List (List String)) (st : List Entry),
      (∀ e ∈ l, isSymKind e.kind = false) →
      l.foldl (filterStep pats false) (k, r, st) =
        (k ++ (l.filter (fun e => e.kind == EntryKind.file && keepB pats e.path)).map
            (fun e => e.path),
         r ++ (l.filter (fun e => e.kind == EntryKind.file && !keepB pats e.path)).map
            (fun e => e.path),
         st.filter (fun x =>
           !((l.filter (fun e => e.kind == EntryKind.file && !keepB pats e.path)).map
               (fun e => e.path)).contains x.path)) := by
  intro l
  induction l with
  | nil => intro k r st _; simp
  | cons e rest ih =>
      intro k r st hns
      have hns1 : isSymKind e.kind = false := hns e (List.mem_cons_self e rest)
      have hnsr : ∀ e2 ∈ rest, isSymKind e2.kind = false :=
        fun e2 he2 => hns e2 (List.mem_cons_of_mem e he2)
      have hfe : isFileNow st e = (e.kind == EntryKind.file) := isFileNow_nosym hns1
      simp only [List.foldl_cons, filterStep_eq]
      by_cases hkind : e.kind = EntryKind.file
      · have hf : isFileNow st e = true := by rw [hfe, hkind]; rfl
        by_cases hk : keepB pats e.path = true
        · rw [if_pos hf, if_pos hk, ih (k ++ [e.path]) r st hnsr]
          simp [List.filter_cons, hkind, hk]
        · have hk2 : keepB pats e.path = false := by simpa using hk
          rw [if_pos hf, if_neg hk]
          simp only [Bool.false_eq_true, if_false, ite_false]
          rw [ih k (r ++ [e.path]) (eraseP st e.path) hnsr]
          unfold eraseP
          simp only [List.filter_filter, Prod.mk.injEq]
          refine ⟨by simp [List.filter_cons, hkind, hk2],
                  by simp [List.filter_cons, hkind, hk2], ?_⟩
          refine List.filter_congr ?_
          intro x _
          simp [List.filter_cons, hkind, hk2, List.contains_cons, Bool.not_or, Bool.and_comm]
      · have hf : isFileNow st e = false := by
          rw [hfe]
          simp [hkind]
        rw [if_neg (by simp [hf]), ih k r st hnsr]
        have hxk : (e.kind == EntryKind.file) = false := by simp [hkind]
        simp [List.filter_cons, hxk]

theorem charListLtB_irrefl : ∀ l, charListLtB l l = false := by
  intro l
  induction l with
  | nil => rfl
  | cons c cs ih =>
      simp only [charListLtB]
      rw [if_neg (lt_irrefl c)]
      simpa using ih

theorem charListLtB_asymm : ∀ a b, charListLtB a b = true → charListLtB b a = false := by
  intro a
  induction a with
  | nil => intro b h; cases b with
      | nil => simp [charListLtB] at h
      | cons y ys => simp [charListLtB]
  | cons x xs ih =>
      intro b h
      cases b with
      | nil => simp [charListLtB] at h
      | cons y ys =>
          simp only [charListLtB] at h ⊢
          by_cases h1 : x < y
          · rw [if_neg (lt_asymm h1), if_neg (fun hc : y = x => lt_irrefl x (hc ▸ h1))]
          · rw [if_neg h1] at h
            by_cases h2 : x = y
            · rw [if_pos h2] at h
              subst h2
              rw [if_neg (lt_irrefl x), if_pos rfl]
              exact ih ys h
            · rw [if_neg h2] at h
              exact absurd h (by simp)

theorem charListLtB_trans : ∀ a b c, charListLtB a b = true → charListLtB b c = true →
    charListLtB a c = true := by
  intro a
  induction a with
  | nil => intro b c h1 h2; cases b with
      | nil => simp [charListLtB] at h1
      | cons y ys =>
          cases c with
          | nil => simp [charListLtB] at h2
          | cons z zs => simp [charListLtB]
  | cons x xs ih =>
      intro b c h1 h2
      cases b with
      | nil => simp [charListLtB] at h1
      | cons y ys =>
          cases c with
          | nil => simp [charListLtB] at h2
          | cons z zs =>
              simp only [charListLtB] at h1 h2 ⊢
              by_cases hxy : x < y
              · by_cases hyz : y < z
                · rw [if_pos (lt_trans hxy hyz)]
                · rw [if_neg hyz] at h2
                  by_cases hyz2 : y = z
                  · rw [if_pos (hyz2 ▸ hxy)]
                  · rw [if_neg hyz2] at h2; exact absurd h2 (by simp)
              · rw [if_neg hxy] at h1
                by_cases hxy2 : x = y
                · rw [if_pos hxy2] at h1
                  subst hxy2
                  by_cases hyz : x < z
                  · rw [if_pos hyz]
                  · rw [if_neg hyz] at h2 ⊢
                    by_cases hyz2 : x = z
                    · rw [if_pos hyz2] at h2 ⊢
                      exact ih ys zs h1 h2
                    · rw [if_neg hyz2] at h2; exact absurd h2 (by simp)
                · rw [if_neg hxy2] at h1; exact absurd h1 (by simp)

theorem strLtB_irrefl (a : String) : strLtB a a = false := charListLtB_irrefl a.data

theorem strLtB_asymm {a b : String} (h : strLtB a b = true) : strLtB b a = false :=
  charListLtB_asymm a.data b.data h

theorem strLtB_trans {a b c : String} (h1 : strLtB a b = true) (h2 : strLtB b c = true) :
    strLtB a c = true := charListLtB_trans a.data b.data c.data h1 h2

theorem pathLtB_asymm : ∀ a b, pathLtB a b = true → pathLtB b a = false := by
  intro a
  induction a with
  | nil => intro b h; cases b with
      | nil => simp [pathLtB] at h
      | cons y ys => simp [pathLtB]
  | cons x xs ih =>
      intro b h
      cases b with
      | nil => simp [pathLtB] at h
      | cons y ys =>
          simp only [pathLtB] at h ⊢
          by_cases h1 : strLtB x y = true
          · have h1a : strLtB y x = false := strLtB_asymm h1
            rw [h1a]
            have hne : ¬ y = x := by
              intro hc
              subst hc
              rw [strLtB_irrefl] at h1
              exact absurd h1 (by simp)
            rw [if_neg (by simp), if_neg hne]
          · have h1b : strLtB x y = false := by simpa using h1
            rw [h1b] at h
            rw [if_neg (by simp)] at h
            by_cases h2 : x = y
            · rw [if_pos h2] at h
              subst h2
              rw [strLtB_irrefl, if_neg (by simp), if_pos rfl]
              exact ih ys h
            · rw [if_neg h2] at h
              exact absurd h (by simp)

theorem pathLtB_trans : ∀ a b c, pathLtB a b = true → pathLtB b c = true →
    pathLtB a c = true := by
  intro a
  induction a with
  | nil => intro b c h1 h2; cases b with
      | nil => simp [pathLtB] at h1
      | cons y ys =>
          cases c with
          | nil => simp [pathLtB] at h2
          | cons z zs => simp [pathLtB]
  | cons x xs ih =>
      intro b c h1 h2
      cases b with
      | nil => simp [pathLtB] at h1
      | cons y ys =>
          cases c with
          | nil => simp [pathLtB] at h2
          | cons z zs =>
              simp only [pathLtB] at h1 h2 ⊢
              by_cases hxy : strLtB x y = true
              · by_cases hyz : strLtB y z = true
                · rw [strLtB_trans hxy hyz, if_pos rfl]
                · have hyzf : strLtB y z = false := by simpa using hyz
                  rw [hyzf, if_neg (by simp)] at h2
                  by_cases hyz2 : y = z
                  · rw [← hyz2, hxy, if_pos rfl]
                  · rw [if_neg hyz2] at h2; exact absurd h2 (by simp)
              · have hxyf : strLtB x y = false := by simpa using hxy
                rw [hxyf, if_neg (by simp)] at h1
                by_cases hxy2 : x = y
                · rw [if_pos hxy2] at h1
                  subst hxy2
                  by_cases hyz : strLtB x z = true
                  · rw [hyz, if_pos rfl]
                  · have hyzf : strLtB x z = false := by simpa using hyz
                    rw [hyzf, if_neg (by simp)] at h2 ⊢
                    by_cases hyz2 : x = z
                    · rw [if_pos hyz2] at h2 ⊢
                      exact ih ys zs h1 h2
                    · rw [if_neg hyz2] at h2; exact absurd h2 (by simp)
                · rw [if_neg hxy2] at h1; exact absurd h1 (by simp)

theorem sPreB_lt : ∀ a b, sPreB a b = true → pathLtB a b = true := by
  intro a
  induction a with
  | nil => intro b h; cases b with
      | nil => simp [sPreB] at h
      | cons y ys => simp [pathLtB]
  | cons x xs ih =>
      intro b h
      cases b with
      | nil => simp [sPreB, List.isPrefixOf] at h
      | cons y ys =>
          simp only [sPreB, List.isPrefixOf, Bool.and_eq_true, beq_iff_eq,
            Bool.not_eq_true', beq_eq_false_iff_ne, ne_eq, List.cons.injEq, not_and] at h
          obtain ⟨⟨hxy, hpre⟩, hne⟩ := h
          subst hxy
          simp only [pathLtB, strLtB_irrefl, if_neg (by simp : ¬ (false = true)), if_pos rfl]
          apply ih
          simp only [sPreB, hpre, Bool.true_and, Bool.not_eq_true', beq_eq_false_iff_ne, ne_eq]
          exact hne rfl

theorem insertDesc_perm (x : List String) : ∀ l, (insertDesc x l).Perm (x :: l) := by
  intro l
  induction l with
  | nil => simp [insertDesc]
  | cons y ys ih =>
      simp only [insertDesc]
      split
      · exact List.Perm.refl _
      · exact (List.Perm.cons y ih).trans (List.Perm.swap x y ys)

theorem sortDesc_perm : ∀ l, (sortDesc l).Perm l := by
  intro l
  induction l with
  | nil => exact List.Perm.refl _
  | cons x xs ih =>
      simp only [sortDesc]
      exact (insertDesc_perm x (sortDesc xs)).trans (List.Perm.cons x ih)

theorem insertDesc_pairwise (x : List String) :
    ∀ l, l.Pairwise (fun a b => pathLtB a b = false) →
      (insertDesc x l).Pairwise (fun a b => pathLtB a b = false) := by
  intro l
  induction l with
  | nil => intro _; simp [insertDesc]
  | cons y ys ih =>
      intro h
      rw [List.pairwise_cons] at h
      simp only [insertDesc]
      split
      · rename_i hyx
        rw [List.pairwise_cons]
        constructor
        · intro z hz
          rcases List.mem_cons.mp hz with rfl | hz2
          · exact pathLtB_asymm _ _ hyx
          · by_contra hc
            have hxz : pathLtB x z = true := by simpa using hc
            have := pathLtB_trans y x z hyx hxz
            rw [h.1 z hz2] at this
            exact absurd this (by simp)
        · exact List.pairwise_cons.mpr h
      · rename_i hyx
        rw [List.pairwise_cons]
        constructor
        · intro z hz
          have hz2 := (insertDesc_perm x ys).mem_iff.mp hz
          rcases List.mem_cons.mp hz2 with rfl | hz3
          · simpa using hyx
          · exact h.1 z hz3
        · exact ih h.2

theorem sortDesc_pairwise : ∀ l, (sortDesc l).Pairwise (fun a b => pathLtB a b = false) := by
  intro l
  induction l with
  | nil => simp [sortDesc]
  | cons x xs ih => exact insertDesc_pairwise x (sortDesc xs) ih

/-- In the descending sweep order, no element is followed by one of its strict
descendants: descendants are processed first. -/
theorem sortDesc_descFirst (l : List (List String)) :
    (sortDesc l).Pairwise (fun a b => sPreB a b = false) := by
  refine (sortDesc_pairwise l).imp ?_
  intro a b hab
  by_contra hc
  have hs : sPreB a b = true := by simpa using hc
  rw [sPreB_lt a b hs] at hab
  exact absurd hab (by simp)

/-! ### Lemmas about the pruning sweep -/

theorem foldl_pruneStep_error (m : String) :
    ∀ L : List (List String), L.foldl pruneStep (Except.error m) = Except.error m := by
  intro L
  induction L with
  | nil => rfl
  | cons p L ih => simpa [pruneStep] using ih

theorem entry_unique {st : List Entry} (hnd : PathNodup st) {x y : Entry}
    (hx : x ∈ st) (hy : y ∈ st) (hp : x.path = y.path) : x = y := by
  have h1 := findEntry_eq_some_of_mem hnd hx
  have h2 := findEntry_eq_some_of_mem hnd hy
  rw [hp] at h1
  rw [h1] at h2
  exact (Option.some.injEq _ _ ▸ h2)

theorem sPreB_iff (a b : List String) : sPreB a b = true ↔ (a <+: b ∧ a ≠ b) := by
  simp [sPreB, List.isPrefixOf_iff_prefix]

theorem sPreB_trans_of_pre {a b c : List String} (h1 : sPreB a b = true) (h2 : b <+: c) :
    sPreB a c = true := by
  rw [sPreB_iff] at h1 ⊢
  obtain ⟨hp, hne⟩ := h1
  refine ⟨hp.trans h2, ?_⟩
  intro hc
  subst hc
  have hl1 := hp.length_le
  have hl2 := h2.length_le
  have : a.length = b.length := le_antisymm hl1 hl2
  exact hne (hp.eq_of_length this)

theorem prune_fold_ok_sublist :
    ∀ (L : List (List String)) (st st' : List Entry), PathNodup st →
      L.foldl pruneStep (Except.ok st) = Except.ok st' →
      st'.Sublist st ∧ ∀ x ∈ st, x ∉ st' → x.kind = EntryKind.dir := by
  intro L
  induction L with
  | nil =>
      intro st st' _ h
      simp only [List.foldl_nil, Except.ok.injEq] at h
      subst h
      exact ⟨List.Sublist.refl _, fun x hx hnx => absurd hx hnx⟩
  | cons p L ih =>
      intro st st' hnd h
      simp only [List.foldl_cons] at h
      cases hf : findEntry st p with
      | none =>
          have hstep : pruneStep (Except.ok st) p = Except.ok st := by
            simp [pruneStep, hf]
          rw [hstep] at h
          exact ih st st' hnd h
      | some e =>
          obtain ⟨hmem, hpath⟩ := mem_of_findEntry hf
          cases hk : e.kind with
          | dir =>
              by_cases hch : hasChildB st p = true
              · have hstep : pruneStep (Except.ok st) p = Except.ok st := by
                  simp [pruneStep, hf, hk, hch]
                rw [hstep] at h
                exact ih st st' hnd h
              · have hch2 : hasChildB st p = false := by simpa using hch
                have hstep : pruneStep (Except.ok st) p = Except.ok (eraseP st p) := by
                  simp [pruneStep, hf, hk, hch2]
                rw [hstep] at h
                have hnd2 : PathNodup (eraseP st p) :=
                  pathNodup_sublist (eraseP_sublist st p) hnd
                obtain ⟨hsub, hrem⟩ := ih (eraseP st p) st' hnd2 h
                refine ⟨hsub.trans (eraseP_sublist st p), ?_⟩
                intro x hx hnx
                by_cases hxe : x ∈ eraseP st p
                · exact hrem x hxe hnx
                · have hxp : x.path = p := by
                    by_contra hc
                    exact hxe (mem_eraseP_of_ne hx hc)
                  have : x = e := entry_unique hnd hx hmem (hxp.trans hpath.symm)
                  rw [this, hk]
          | symlink t =>
              cases hr : resolveDirPath st t with
              | none =>
                  have hstep : pruneStep (Except.ok st) p = Except.ok st := by
                    simp [pruneStep, hf, hk, hr]
                  rw [hstep] at h
                  exact ih st st' hnd h
              | some d =>
                  by_cases hch : hasChildB st d = true
                  · have hstep : pruneStep (Except.ok st) p = Except.ok st := by
                      simp [pruneStep, hf, hk, hr, hch]
                    rw [hstep] at h
                    exact ih st st' hnd h
                  · have hch2 : hasChildB st d = false := by simpa using hch
                    have hstep : pruneStep (Except.ok st) p =
                        Except.error "NotADirectoryError: rmdir on a symlink" := by
                      simp [pruneStep, hf, hk, hr, hch2]
                    rw [hstep, foldl_pruneStep_error] at h
                    exact absurd h (by simp)
          | file =>
              have hstep : pruneStep (Except.ok st) p = Except.ok st := by
                simp [pruneStep, hf, hk]
              rw [hstep] at h
              exact ih st st' hnd h
          | other =>
              have hstep : pruneStep (Except.ok st) p = Except.ok st := by
                simp [pruneStep, hf, hk]
              rw [hstep] at h
              exact ih st st' hnd h

theorem hasChildB_iff (st : List Entry) (p : List String) :
    hasChildB st p = true ↔ ∃ e ∈ st, e.path.length = p.length + 1 ∧ p <+: e.path := by
  simp [hasChildB, List.any_eq_true, List.isPrefixOf_iff_prefix]

theorem sPreB_of_strict {p q : List String} (hp : p <+: q) (hl : p.length < q.length) :
    sPreB p q = true := by
  rw [sPreB_iff]
  exact ⟨hp, fun hc => by rw [hc] at hl; exact lt_irrefl _ hl⟩

theorem findEntry_none_iff (st : List Entry) (p : List String) :
    findEntry st p = none ↔ ∀ e ∈ st, e.path ≠ p := by
  unfold findEntry
  rw [List.find?_eq_none]
  constructor
  · intro h e he
    have := h e he
    simpa using this
  · intro h e he
    simpa using h e he

theorem prune_fold_no_empty_dir :
    ∀ (L : List (List String)) (st st' : List Entry), PathNodup st →
      L.Nodup →
      L.Pairwise (fun a b => sPreB a b = false) →
      (∀ x ∈ st, x.kind = EntryKind.dir → x.path ∉ L →
        (hasChildB st x.path = true ∧ ∀ q ∈ L, sPreB x.path q = false)) →
      L.foldl pruneStep (Except.ok st) = Except.ok st' →
      ∀ x ∈ st', x.kind = EntryKind.dir → hasChildB st' x.path = true := by
  intro L
  induction L with
  | nil =>
      intro st st' _ _ _ hinv h
      simp only [List.foldl_nil, Except.ok.injEq] at h
      subst h
      intro x hx hk
      exact (hinv x hx hk (by simp)).1
  | cons p L ih =>
      intro st st' hnd hLnd hLpw hinv h
      simp only [List.foldl_cons] at h
      have hLnd2 : L.Nodup := (List.nodup_cons.mp hLnd).2
      have hpnotL : p ∉ L := (List.nodup_cons.mp hLnd).1
      have hLpw2 : L.Pairwise (fun a b => sPreB a b = false) :=
        (List.pairwise_cons.mp hLpw).2
      have hphead : ∀ q ∈ L, sPreB p q = false := (List.pairwise_cons.mp hLpw).1
      -- invariant propagation for the unchanged-state branches
      have hinv_skip : (∀ x ∈ st, x.path = p → x.kind = EntryKind.dir →
            hasChildB st x.path = true) →
          ∀ x ∈ st, x.kind = EntryKind.dir → x.path ∉ L →
            (hasChildB st x.path = true ∧ ∀ q ∈ L, sPreB x.path q = false) := by
        intro hp x hx hk hxL
        by_cases hxp : x.path = p
        · refine ⟨hp x hx hxp hk, ?_⟩
          intro q hq
          rw [hxp]
          exact hphead q hq
        · have hxpl : x.path ∉ p :: L := by
            simp only [List.mem_cons, not_or]
            exact ⟨hxp, hxL⟩
          obtain ⟨h1, h2⟩ := hinv x hx hk hxpl
          exact ⟨h1, fun q hq => h2 q (List.mem_cons_of_mem p hq)⟩
      cases hf : findEntry st p with
      | none =>
          have hstep : pruneStep (Except.ok st) p = Except.ok st := by
            simp [pruneStep, hf]
          rw [hstep] at h
          refine ih st st' hnd hLnd2 hLpw2 (hinv_skip ?_) h
          intro x hx hxp _
          exact absurd hxp ((findEntry_none_iff st p).mp hf x hx)
      | some e =>
          obtain ⟨hmem, hpath⟩ := mem_of_findEntry hf
          cases hk : e.kind with
          | dir =>
              by_cases hch : hasChildB st p = true
              · have hstep : pruneStep (Except.ok st) p = Except.ok st := by
                  simp [pruneStep, hf, hk, hch]
                rw [hstep] at h
                refine ih st st' hnd hLnd2 hLpw2 (hinv_skip ?_) h
                intro x hx hxp _
                rw [hxp]
                exact hch
              · have hch2 : hasChildB st p = false := by simpa using hch
                have hstep : pruneStep (Except.ok st) p = Except.ok (eraseP st p) := by
                  simp [pruneStep, hf, hk, hch2]
                rw [hstep] at h
                have hnd2 : PathNodup (eraseP st p) :=
                  pathNodup_sublist (eraseP_sublist st p) hnd
                refine ih (eraseP st p) st' hnd2 hLnd2 hLpw2 ?_ h
                intro x hx hkx hxL
                have hxst : x ∈ st := (eraseP_sublist st p).mem hx
                have hxp : x.path ≠ p := not_mem_eraseP st p x hx
                have hxpl : x.path ∉ p :: L := by
                  simp only [List.mem_cons, not_or]
                  exact ⟨hxp, hxL⟩
                obtain ⟨h1, h2⟩ := hinv x hxst hkx hxpl
                constructor
                · rw [hasChildB_iff] at h1 ⊢
                  obtain ⟨c, hc, hcl, hcp⟩ := h1
                  refine ⟨c, ?_, hcl, hcp⟩
                  apply mem_eraseP_of_ne hc
                  intro hcq
                  have : sPreB x.path p = true :=
                    sPreB_of_strict (hcq ▸ hcp) (by rw [hcq] at hcl; omega)
                  rw [h2 p (List.mem_cons_self p L)] at this
                  exact absurd this (by simp)
                · exact fun q hq => h2 q (List.mem_cons_of_mem p hq)
          | symlink t =>
              cases hr : resolveDirPath st t with
              | none =>
                  have hstep : pruneStep (Except.ok st) p = Except.ok st := by
                    simp [pruneStep, hf, hk, hr]
                  rw [hstep] at h
                  refine ih st st' hnd hLnd2 hLpw2 (hinv_skip ?_) h
                  intro x hx hxp hkx
                  have : x = e := entry_unique hnd hx hmem (hxp.trans hpath.symm)
                  rw [this, hk] at hkx
                  exact absurd hkx (by simp)
              | some d =>
                  by_cases hch : hasChildB st d = true
                  · have hstep : pruneStep (Except.ok st) p = Except.ok st := by
                      simp [pruneStep, hf, hk, hr, hch]
                    rw [hstep] at h
                    refine ih st st' hnd hLnd2 hLpw2 (hinv_skip ?_) h
                    intro x hx hxp hkx
                    have : x = e := entry_unique hnd hx hmem (hxp.trans hpath.symm)
                    rw [this, hk] at hkx
                    exact absurd hkx (by simp)
                  · have hch2 : hasChildB st d = false := by simpa using hch
                    have hstep : pruneStep (Except.ok st) p =
                        Except.error "NotADirectoryError: rmdir on a symlink" := by
                      simp [pruneStep, hf, hk, hr, hch2]
                    rw [hstep, foldl_pruneStep_error] at h
                    exact absurd h (by simp)
          | file =>
              have hstep : pruneStep (Except.ok st) p = Except.ok st := by
                simp [pruneStep, hf, hk]
              rw [hstep] at h
              refine ih st st' hnd hLnd2 hLpw2 (hinv_skip ?_) h
              intro x hx hxp hkx
              have : x = e := entry_unique hnd hx hmem (hxp.trans hpath.symm)
              rw [this, hk] at hkx
              exact absurd hkx (by simp)
          | other =>
              have hstep : pruneStep (Except.ok st) p = Except.ok st := by
                simp [pruneStep, hf, hk]
              rw [hstep] at h
              refine ih st st' hnd hLnd2 hLpw2 (hinv_skip ?_) h
              intro x hx hxp hkx
              have : x = e := entry_unique hnd hx hmem (hxp.trans hpath.symm)
              rw [this, hk] at hkx
              exact absurd hkx (by simp)

theorem prune_ok_sublist {st st' : List Entry} (hnd : PathNodup st)
    (h : prune st = Except.ok st') :
    st'.Sublist st ∧ ∀ x ∈ st, x ∉ st' → x.kind = EntryKind.dir :=
  prune_fold_ok_sublist _ st st' hnd h

theorem sortDesc_nodup {l : List (List String)} (h : l.Nodup) : (sortDesc l).Nodup :=
  (sortDesc_perm l).nodup_iff.mpr h

theorem prune_no_empty_dir {st st' : List Entry} (hnd : PathNodup st)
    (h : prune st = Except.ok st') :
    ∀ x ∈ st', x.kind = EntryKind.dir → hasChildB st' x.path = true := by
  have hmnd : (st.map (fun e => e.path)).Nodup := hnd
  unfold prune at h
  refine prune_fold_no_empty_dir (sortDesc (st.map (fun e => e.path))) st st' hnd
    (sortDesc_nodup hmnd) (sortDesc_descFirst (st.map (fun e => e.path))) ?_ h
  intro x hx hk hxL
  exact absurd ((sortDesc_perm _).mem_iff.mpr (List.mem_map_of_mem (fun e => e.path) hx)) hxL

theorem resolvePath_mem {st : List Entry} :
    ∀ (f : Nat) (p : List String) (e : Entry), resolvePath st f p = some e → e ∈ st := by
  intro f
  induction f with
  | zero => intro p e h; simp [resolvePath] at h
  | succ n ih =>
      intro p e h
      simp only [resolvePath] at h
      cases hf : findEntry st p with
      | none => simp [hf] at h
      | some e1 =>
          simp only [hf] at h
          cases hk : e1.kind with
          | symlink t =>
              simp only [hk] at h
              exact ih t e h
          | file =>
              simp only [hk] at h
              exact (Option.some.inj h) ▸ (mem_of_findEntry hf).1
          | dir =>
              simp only [hk] at h
              exact (Option.some.inj h) ▸ (mem_of_findEntry hf).1
          | other =>
              simp only [hk] at h
              exact (Option.some.inj h) ▸ (mem_of_findEntry hf).1

theorem pruneStep_fixed {st : List Entry} (hnd : PathNodup st)
    (hdirs : ∀ x ∈ st, x.kind = EntryKind.dir → hasChildB st x.path = true) :
    ∀ p, pruneStep (Except.ok st) p = Except.ok st := by
  intro p
  cases hf : findEntry st p with
  | none => simp [pruneStep, hf]
  | some e =>
      obtain ⟨hmem, hpath⟩ := mem_of_findEntry hf
      cases hk : e.kind with
      | dir =>
          have hch : hasChildB st p = true := hpath ▸ hdirs e hmem hk
          simp [pruneStep, hf, hk, hch]
      | symlink t =>
          cases hr : resolveDirPath st t with
          | none => simp [pruneStep, hf, hk, hr]
          | some d =>
              have hch : hasChildB st d = true := by
                unfold resolveDirPath at hr
                cases hres : resolvePath st st.length t with
                | none => rw [hres] at hr; simp at hr
                | some e2 =>
                    simp only [hres] at hr
                    cases hk2 : e2.kind with
                    | dir =>
                        simp only [hk2, Option.some.injEq] at hr
                        exact hr ▸ hdirs e2 (resolvePath_mem st.length t e2 hres) hk2
                    | file => simp [hk2] at hr
                    | symlink t2 => simp [hk2] at hr
                    | other => simp [hk2] at hr
              simp [pruneStep, hf, hk, hr, hch]
      | file => simp [pruneStep, hf, hk]
      | other => simp [pruneStep, hf, hk]

theorem prune_fixed {st : List Entry} (hnd : PathNodup st)
    (hdirs : ∀ x ∈ st, x.kind = EntryKind.dir → hasChildB st x.path = true) :
    prune st = Except.ok st := by
  unfold prune
  generalize sortDesc (st.map (fun e => e.path)) = L
  induction L with
  | nil => rfl
  | cons p L ih =>
      rw [List.foldl_cons, pruneStep_fixed hnd hdirs p]
      exact ih

theorem bool_eq_of_iff {a b : Bool} (h : a = true ↔ b = true) : a = b := by
  cases a <;> cases b <;> simp_all

theorem takeIsPre (n : Nat) (l : List String) : l.take n <+: l :=
  ⟨l.drop n, List.take_append_drop n l⟩

theorem preEqTake {l1 l2 : List String} (h : l1 <+: l2) : l1 = l2.take l1.length := by
  obtain ⟨t, rfl⟩ := h
  simp

theorem liveB_iff (S : List Entry) (p : List String) :
    liveB S p = true ↔ ∃ e ∈ S, e.kind ≠ EntryKind.dir ∧ sPreB p e.path = true := by
  simp [liveB, List.any_eq_true]

theorem mem_filter_out {S : List Entry} {rem : List (List String)} {e : Entry} :
    e ∈ S.filter (outPredB S rem) ↔
      e ∈ S ∧ (e.kind = EntryKind.dir → (e.path ∈ rem ∨ liveB S e.path = true)) := by
  rw [List.mem_filter]
  unfold outPredB
  by_cases hk : e.kind = EntryKind.dir
  · simp [hk, List.elem_iff]
  · simp [hk]

theorem length_lt_of_sPreB {a b : List String} (h : sPreB a b = true) :
    a.length < b.length := by
  rw [sPreB_iff] at h
  obtain ⟨hp, hne⟩ := h
  rcases Nat.lt_or_ge a.length b.length with hlt | hge
  · exact hlt
  · exact absurd (hp.eq_of_length (le_antisymm hp.length_le hge)) hne

theorem hasChild_filter_out {S : List Entry} (hnd : PathNodup S)
    (hpc : PrefixClosedT S) {rem : List (List String)} {q : List String}
    (hq : ∀ r ∈ rem, sPreB q r = false) :
    hasChildB (S.filter (outPredB S (q :: rem))) q = liveB S q := by
  apply bool_eq_of_iff
  constructor
  · -- a remaining child of q witnesses a live non-directory descendant
    intro h
    rw [hasChildB_iff] at h
    obtain ⟨c, hc, hclen, hcp⟩ := h
    rw [mem_filter_out] at hc
    obtain ⟨hcS, hcout⟩ := hc
    have hspre : sPreB q c.path = true := sPreB_of_strict hcp (by omega)
    by_cases hck : c.kind = EntryKind.dir
    · rcases hcout hck with hin | hlive
      · rcases List.mem_cons.mp hin with hqq | hinrem
        · rw [hqq] at hclen; omega
        · rw [hq c.path hinrem] at hspre
          exact absurd hspre (by simp)
      · rw [liveB_iff] at hlive ⊢
        obtain ⟨e, he, hek, hes⟩ := hlive
        refine ⟨e, he, hek, ?_⟩
        exact sPreB_trans_of_pre hspre ((sPreB_iff _ _).mp hes).1
    · rw [liveB_iff]
      exact ⟨c, hcS, hck, hspre⟩
  · -- a live descendant yields a remaining immediate child of q
    intro h
    rw [liveB_iff] at h
    obtain ⟨e, he, hek, hes⟩ := h
    have hpre : q <+: e.path := ((sPreB_iff _ _).mp hes).1
    have hlen : q.length < e.path.length := length_lt_of_sPreB hes
    set c : List String := e.path.take (q.length + 1) with hc
    have hclen : c.length = q.length + 1 := by
      rw [hc, List.length_take]
      omega
    have hqtake : q = e.path.take q.length := preEqTake hpre
    have hqc : q <+: c := by
      have h1 : c.take q.length = q := by
        rw [hc, List.take_take, min_eq_left (by omega), ← hqtake]
      exact h1 ▸ takeIsPre q.length c
    have hce : c <+: e.path := takeIsPre _ _
    rw [hasChildB_iff]
    by_cases hceq : c = e.path
    · refine ⟨e, ?_, by rw [← hceq, hclen], hceq ▸ hqc⟩
      rw [mem_filter_out]
      exact ⟨he, fun hk => absurd hk hek⟩
    · have hclt : c.length < e.path.length := by
        rcases Nat.lt_or_ge c.length e.path.length with h1 | h1
        · exact h1
        · exact absurd (hce.eq_of_length (le_antisymm hce.length_le h1)) hceq
      obtain ⟨d, hd, hdpath, hdkind⟩ :=
        hpc e he (q.length + 1) (by rw [List.mem_range]; omega) (by omega)
      refine ⟨d, ?_, by rw [hdpath, hclen], by rw [hdpath]; exact hqc⟩
      rw [mem_filter_out]
      refine ⟨hd, fun _ => Or.inr ?_⟩
      rw [liveB_iff]
      refine ⟨e, he, hek, ?_⟩
      rw [hdpath]
      rw [sPreB_iff]
      exact ⟨hce, hceq⟩

theorem prune_fold_nosym :
    ∀ (L : List (List String)) (S st : List Entry),
      PathNodup S → NoSymlinkEntry S → NonEmptyPaths S → PrefixClosedT S →
      L.Nodup → L.Pairwise (fun a b => sPreB a b = false) →
      (∀ q ∈ L, ∃ e ∈ S, e.path = q) →
      st = S.filter (outPredB S L) →
      L.foldl pruneStep (Except.ok st) = Except.ok (S.filter (outPredB S [])) := by
  intro L
  induction L with
  | nil => intro S st _ _ _ _ _ _ _ hst; rw [List.foldl_nil, hst]
  | cons q L ih =>
      intro S st hnd hns hne hpc hLnd hLpw hLsub hst
      obtain ⟨e0, he0, he0path⟩ := hLsub q (List.mem_cons_self q L)
      have hLnd2 : L.Nodup := (List.nodup_cons.mp hLnd).2
      have hqL : q ∉ L := (List.nodup_cons.mp hLnd).1
      have hLpw2 := (List.pairwise_cons.mp hLpw).2
      have hqhead : ∀ r ∈ L, sPreB q r = false := (List.pairwise_cons.mp hLpw).1
      have hLsub2 : ∀ r ∈ L, ∃ e ∈ S, e.path = r :=
        fun r hr => hLsub r (List.mem_cons_of_mem q hr)
      have hstnd : PathNodup st := hst ▸ pathNodup_sublist (List.filter_sublist S) hnd
      have he0in : e0 ∈ st := by
        rw [hst, mem_filter_out]
        exact ⟨he0, fun _ => Or.inl (by rw [he0path]; exact List.mem_cons_self q L)⟩
      have hfind : findEntry st q = some e0 :=
        he0path ▸ findEntry_eq_some_of_mem hstnd he0in
      rw [List.foldl_cons]
      cases hk : e0.kind with
      | symlink t =>
          have hs := hns e0 he0
          rw [hk] at hs
          simp [isSymKind] at hs
      | file =>
          have hstep : pruneStep (Except.ok st) q = Except.ok st := by
            simp [pruneStep, hfind, hk]
          rw [hstep]
          refine ih S st hnd hns hne hpc hLnd2 hLpw2 hLsub2 ?_
          rw [hst]
          refine List.filter_congr ?_
          intro e heS
          unfold outPredB
          by_cases hek : e.kind = EntryKind.dir
          · rw [if_pos hek, if_pos hek]
            have hne0 : e.path ≠ q := by
              intro hc
              have he01 : e = e0 := entry_unique hnd heS he0 (hc.trans he0path.symm)
              rw [he01, hk] at hek
              exact absurd hek (by simp)
            have hcc : ((q :: L).contains e.path) = (L.contains e.path) := by
              simp [List.elem_iff, hne0]
            rw [hcc]
          · rw [if_neg hek, if_neg hek]
      | other =>
          have hstep : pruneStep (Except.ok st) q = Except.ok st := by
            simp [pruneStep, hfind, hk]
          rw [hstep]
          refine ih S st hnd hns hne hpc hLnd2 hLpw2 hLsub2 ?_
          rw [hst]
          refine List.filter_congr ?_
          intro e heS
          unfold outPredB
          by_cases hek : e.kind = EntryKind.dir
          · rw [if_pos hek, if_pos hek]
            have hne0 : e.path ≠ q := by
              intro hc
              have he01 : e = e0 := entry_unique hnd heS he0 (hc.trans he0path.symm)
              rw [he01, hk] at hek
              exact absurd hek (by simp)
            have hcc : ((q :: L).contains e.path) = (L.contains e.path) := by
              simp [List.elem_iff, hne0]
            rw [hcc]
          · rw [if_neg hek, if_neg hek]
      | dir =>
          have hkey : hasChildB st q = liveB S q := by
            rw [hst]
            exact hasChild_filter_out hnd hpc hqhead
          by_cases hl : liveB S q = true
          · have hch : hasChildB st q = true := by rw [hkey, hl]
            have hstep : pruneStep (Except.ok st) q = Except.ok st := by
              simp [pruneStep, hfind, hk, hch]
            rw [hstep]
            refine ih S st hnd hns hne hpc hLnd2 hLpw2 hLsub2 ?_
            rw [hst]
            refine List.filter_congr ?_
            intro e heS
            unfold outPredB
            by_cases hek : e.kind = EntryKind.dir
            · rw [if_pos hek, if_pos hek]
              by_cases hpq : e.path = q
              · rw [hpq]
                have h1 : ((q :: L).contains q) = true := by simp [List.elem_iff]
                rw [h1, hl]
                simp
              · have hcc : ((q :: L).contains e.path) = (L.contains e.path) := by
                  simp [List.elem_iff, hpq]
                rw [hcc]
            · rw [if_neg hek, if_neg hek]
          · have hl2 : liveB S q = false := by simpa using hl
            have hch : hasChildB st q = false := by rw [hkey, hl2]
            have hstep : pruneStep (Except.ok st) q = Except.ok (eraseP st q) := by
              simp [pruneStep, hfind, hk, hch]
            rw [hstep]
            refine ih S (eraseP st q) hnd hns hne hpc hLnd2 hLpw2 hLsub2 ?_
            rw [hst]
            unfold eraseP
            rw [List.filter_filter]
            refine List.filter_congr ?_
            intro e heS
            by_cases hpq : e.path = q
            · have he01 : e = e0 := entry_unique hnd heS he0 (hpq.trans he0path.symm)
              have hout : outPredB S L e = false := by
                unfold outPredB
                rw [if_pos (by rw [he01, hk])]
                rw [hpq]
                have hcl : (L.contains q) = false := by
                  simp [List.elem_iff]
                  exact hqL
                rw [hcl, hl2]
                rfl
              rw [hout]
              simp [hpq]
            · have hout : outPredB S (q :: L) e = outPredB S L e := by
                unfold outPredB
                by_cases hek : e.kind = EntryKind.dir
                · rw [if_pos hek, if_pos hek]
                  have hcc : ((q :: L).contains e.path) = (L.contains e.path) := by
                    simp [List.elem_iff, hpq]
                  rw [hcc]
                · rw [if_neg hek, if_neg hek]
              rw [← hout]
              simp [hpq]

theorem prune_nosym {S : List Entry} (hnd : PathNodup S) (hns : NoSymlinkEntry S)
    (hne : NonEmptyPaths S) (hpc : PrefixClosedT S) :
    prune S = Except.ok (S.filter (outPredB S [])) := by
  unfold prune
  have hmnd : (S.map (fun e => e.path)).Nodup := hnd
  refine prune_fold_nosym (sortDesc (S.map (fun e => e.path))) S S hnd hns hne hpc
    (sortDesc_nodup hmnd) (sortDesc_descFirst (S.map (fun e => e.path))) ?_ ?_
  · intro q hq
    have hq2 : q ∈ S.map (fun e => e.path) := (sortDesc_perm _).mem_iff.mp hq
    obtain ⟨e, he, hep⟩ := List.mem_map.mp hq2
    exact ⟨e, he, hep⟩
  · refine (List.filter_eq_self.mpr ?_).symm
    intro e he
    unfold outPredB
    by_cases hek : e.kind = EntryKind.dir
    · rw [if_pos hek]
      have hcc : ((sortDesc (S.map (fun e => e.path))).contains e.path) = true := by
        simp only [List.elem_iff]
        exact (sortDesc_perm _).mem_iff.mpr (List.mem_map_of_mem (fun e => e.path) he)
      rw [hcc]
      rfl
    · rw [if_neg hek]

theorem nosym_sublist {S T : List Entry} (h : S.Sublist T) (hns : NoSymlinkEntry T) :
    NoSymlinkEntry S := fun e he => hns e (h.mem he)

theorem nonEmptyPaths_sublist {S T : List Entry} (h : S.Sublist T)
    (hne : NonEmptyPaths T) : NonEmptyPaths S := fun e he => hne e (h.mem he)

theorem prefixClosed_filter {T : List Entry} (hpc : PrefixClosedT T) {p : Entry → Bool}
    (hdir : ∀ e ∈ T, e.kind = EntryKind.dir → p e = true) :
    PrefixClosedT (T.filter p) := by
  intro e he n hn hn0
  obtain ⟨d, hd, hdp, hdk⟩ := hpc e (List.mem_filter.mp he).1 n hn hn0
  exact ⟨d, List.mem_filter.mpr ⟨hd, hdir d hd hdk⟩, hdp, hdk⟩

theorem runFilter_apply_eq (drivers : List String) (T : List Entry) :
    runFilter drivers false T =
      match prune (deleteFold (_compile_patterns drivers) false T).2.2 with
      | Except.ok st2 => Except.ok ((deleteFold (_compile_patterns drivers) false T).1,
          (deleteFold (_compile_patterns drivers) false T).2.1, st2)
      | Except.error m => Except.error m := rfl

theorem runFilter_dry_eq (drivers : List String) (T : List Entry) :
    runFilter drivers true T = Except.ok (deleteFold (_compile_patterns drivers) true T) := rfl

theorem survPred_iff (pats : List (List Tok)) (e : Entry) :
    survPred pats e = true ↔ (e.kind = EntryKind.file → keepB pats e.path = true) := by
  unfold survPred
  cases hk : e.kind <;> simp [hk]

theorem deleteFold_nosym_eq (pats : List (List Tok)) (T : List Entry)
    (hnd : PathNodup T) (hns : NoSymlinkEntry T) :
    deleteFold pats false T =
      ((T.filter (fun e => e.kind == EntryKind.file && keepB pats e.path)).map
         (fun e => e.path),
       (T.filter (fun e => e.kind == EntryKind.file && !keepB pats e.path)).map
         (fun e => e.path),
       T.filter (survPred pats)) := by
  unfold deleteFold
  rw [foldl_filterStep_nosym pats T [] [] T hns]
  simp only [List.nil_append]
  have hstate : T.filter (fun x =>
      !((T.filter (fun e => e.kind == EntryKind.file && !keepB pats e.path)).map
          (fun e => e.path)).contains x.path) = T.filter (survPred pats) := by
    refine List.filter_congr ?_
    intro x hx
    have hcc : (((T.filter (fun e => e.kind == EntryKind.file && !keepB pats e.path)).map
        (fun e => e.path)).contains x.path) =
        (x.kind == EntryKind.file && !keepB pats x.path) := by
      apply bool_eq_of_iff
      constructor
      · intro h
        rw [List.elem_iff] at h
        obtain ⟨e, he, hep⟩ := List.mem_map.mp h
        have he2 := List.mem_filter.mp he
        have hex : e = x := entry_unique hnd he2.1 hx hep
        exact hex ▸ he2.2
      · intro h
        rw [List.elem_iff]
        have hxf : x ∈ T.filter (fun e => e.kind == EntryKind.file && !keepB pats e.path) :=
          List.mem_filter.mpr ⟨hx, h⟩
        exact List.mem_map_of_mem (fun e => e.path) hxf
    rw [hcc]
    rfl
  rw [hstate]

/-- C5 (amended): on a well-formed tree containing no symlink entries, apply
mode deletes exactly the non-matching regular files and then the single
deepest-first pruning pass leaves exactly: the surviving non-directory
entries, and those directories that still have some surviving non-directory
entry strictly below them.  Equivalently, every directory left without any
remaining entry, directly or transitively, is removed (a removed child may
empty its parent, which the same bottom-up pass also removes), while every
directory still containing a kept file (or other surviving entry) continues
to exist.  (On trees with symlinks the claim fails: the pass can crash, see
the counterexample.) -/
theorem c5_apply_prunes_empty_dirs (T : List Entry) (drivers : List String)
    (hwf : TreeWF T) (hns : NoSymlinkEntry T) :
    ∃ K R F, runFilter drivers false T = Except.ok (K, R, F) ∧
      (∀ e : Entry, e ∈ F ↔
        (e ∈ T ∧ (e.kind = EntryKind.file → keepB (_compile_patterns drivers) e.path = true) ∧
         (e.kind = EntryKind.dir →
           ∃ e2 ∈ T, e2.kind ≠ EntryKind.dir ∧
             (e2.kind = EntryKind.file → keepB (_compile_patterns drivers) e2.path = true) ∧
             sPreB e.path e2.path = true))) := by
  obtain ⟨hnd, hne, hpc⟩ := hwf
  have hdf := deleteFold_nosym_eq (_compile_patterns drivers) T hnd hns
  have hsub1 : (T.filter (survPred (_compile_patterns drivers))).Sublist T :=
    List.filter_sublist T
  have hnd1 : PathNodup (T.filter (survPred (_compile_patterns drivers))) :=
    pathNodup_sublist hsub1 hnd
  have hns1 : NoSymlinkEntry (T.filter (survPred (_compile_patterns drivers))) :=
    nosym_sublist hsub1 hns
  have hne1 : NonEmptyPaths (T.filter (survPred (_compile_patterns drivers))) :=
    nonEmptyPaths_sublist hsub1 hne
  have hpc1 : PrefixClosedT (T.filter (survPred (_compile_patterns drivers))) := by
    refine prefixClosed_filter hpc ?_
    intro e _ hk
    unfold survPred
    rw [hk]
    rfl
  have hpr := prune_nosym hnd1 hns1 hne1 hpc1
  have hrun : runFilter drivers false T = Except.ok
      ((T.filter (fun e => e.kind == EntryKind.file &&
          keepB (_compile_patterns drivers) e.path)).map (fun e => e.path),
       (T.filter (fun e => e.kind == EntryKind.file &&
          !keepB (_compile_patterns drivers) e.path)).map (fun e => e.path),
       (T.filter (survPred (_compile_patterns drivers))).filter
         (outPredB (T.filter (survPred (_compile_patterns drivers))) [])) := by
    rw [runFilter_apply_eq, hdf]
    simp only [hpr]
  refine ⟨_, _, _, hrun, ?_⟩
  intro e
  rw [mem_filter_out]
  constructor
  · rintro ⟨heS1, hdir⟩
    have heT := List.mem_filter.mp heS1
    refine ⟨heT.1, (survPred_iff _ _).mp heT.2, ?_⟩
    intro hk
    rcases hdir hk with h | h
    · simp at h
    · rw [liveB_iff] at h
      obtain ⟨e2, he2, he2k, he2s⟩ := h
      have he2T := List.mem_filter.mp he2
      exact ⟨e2, he2T.1, he2k, (survPred_iff _ _).mp he2T.2, he2s⟩
  · rintro ⟨heT, hsurv, hdir⟩
    refine ⟨List.mem_filter.mpr ⟨heT, (survPred_iff _ _).mpr hsurv⟩, ?_⟩
    intro hk
    refine Or.inr ?_
    rw [liveB_iff]
    obtain ⟨e2, he2T, he2k, he2surv, he2s⟩ := hdir hk
    exact ⟨e2, List.mem_filter.mpr ⟨he2T, (survPred_iff _ _).mpr he2surv⟩, he2k, he2s⟩

theorem c5_apply_prunes_empty_dirs_witness :
    ∃ (K R : List (List String)) (F : List Entry),
      runFilter ["iwl*"] false wTree5 = Except.ok (K, R, F) ∧
      (∀ e : Entry, e ∈ F ↔
        (e ∈ wTree5 ∧
         (e.kind = EntryKind.file → keepB (_compile_patterns ["iwl*"]) e.path = true) ∧
         (e.kind = EntryKind.dir →
           ∃ e2 ∈ wTree5, e2.kind ≠ EntryKind.dir ∧
             (e2.kind = EntryKind.file → keepB (_compile_patterns ["iwl*"]) e2.path = true) ∧
             sPreB e.path e2.path = true))) :=
  c5_apply_prunes_empty_dirs wTree5 ["iwl*"] (by decide) (by decide)

/-- C5 counterexample: on the tree with an empty directory `d` and a symlink
`s` whose target is `d`, apply mode with an empty pattern list crashes: the
sweep visits `s` first (it sorts after `d`), `s.is_dir()` is true and the
target is empty, and `rmdir` on the symlink raises an uncaught
`NotADirectoryError` — instead of removing the empty directory `d` as the
claim requires. -/
theorem c5_symlink_rmdir_counterexample :
    runFilter [] false [⟨["d"], EntryKind.dir⟩, ⟨["s"], EntryKind.symlink ["d"]⟩] =
      Except.error "NotADirectoryError: rmdir on a symlink" := by decide

/-! ### Claim C7: idempotence of apply mode -/

theorem hasChildB_perm {s1 s2 : List Entry} (hperm : s1.Perm s2) (p : List String) :
    hasChildB s1 p = hasChildB s2 p := by
  apply bool_eq_of_iff
  rw [hasChildB_iff, hasChildB_iff]
  constructor
  · rintro ⟨e, he, h1, h2⟩; exact ⟨e, hperm.mem_iff.mp he, h1, h2⟩
  · rintro ⟨e, he, h1, h2⟩; exact ⟨e, hperm.mem_iff.mpr he, h1, h2⟩

/-- C7: filtering in apply mode is idempotent.  If an apply-mode run on tree
`T` completes and produces the filtered tree `S2`, then a second apply-mode
run over that filtered tree (enumerated in any order `T2`) removes zero
additional files: its removed list is empty and the tree is left unchanged —
the kept set is a fixed point of the filter. -/
theorem c7_apply_idempotent (T : List Entry) (drivers : List String)
    (hnd : PathNodup T) (K R : List (List String)) (S2 : List Entry)
    (h1 : runFilter drivers false T = Except.ok (K, R, S2))
    (T2 : List Entry) (hperm : T2.Perm S2) :
    ∃ K2, runFilter drivers false T2 = Except.ok (K2, [], T2) := by
  rw [runFilter_apply_eq] at h1
  have hS1sub : ((deleteFold (_compile_patterns drivers) false T).2.2).Sublist T :=
    foldl_filterStep_state_sublist _ false T ([], [], T)
  have hS1nd : PathNodup (deleteFold (_compile_patterns drivers) false T).2.2 :=
    pathNodup_sublist hS1sub hnd
  cases hpr : prune (deleteFold (_compile_patterns drivers) false T).2.2 with
  | error m => rw [hpr] at h1; exact absurd h1 (by simp)
  | ok st2 =>
      rw [hpr] at h1
      simp only [Except.ok.injEq, Prod.mk.injEq] at h1
      obtain ⟨hK, hR, hst2⟩ := h1
      rw [hst2] at hpr
      have hsub2 : S2.Sublist (deleteFold (_compile_patterns drivers) false T).2.2 :=
        (prune_ok_sublist hS1nd hpr).1
      have hnd2 : PathNodup S2 := pathNodup_sublist hsub2 hS1nd
      have hndT2 : PathNodup T2 := by
        have hnd2m : (S2.map (fun e => e.path)).Nodup := hnd2
        unfold PathNodup
        exact (List.Perm.map (fun e => e.path) hperm).nodup_iff.mpr hnd2m
      have hdirs2 : ∀ x ∈ S2, x.kind = EntryKind.dir → hasChildB S2 x.path = true :=
        prune_no_empty_dir hS1nd hpr
      -- every entry of the filtered tree that still passes the file test matches
      have hmatched : ∀ e ∈ S2, isFileNow S2 e = true →
          keepB (_compile_patterns drivers) e.path = true := by
        intro e he hisf
        have heS1 : e ∈ (deleteFold (_compile_patterns drivers) false T).2.2 := hsub2.mem he
        have hisf1 : isFileNow (deleteFold (_compile_patterns drivers) false T).2.2 e = true :=
          isFileNow_mono hsub2 hS1nd hisf
        exact foldl_filterStep_final_matched (_compile_patterns drivers) T ([], [], T)
          hnd e (hS1sub.mem heS1) heS1 hisf1
      have hmatchedT2 : ∀ e ∈ T2, isFileNow T2 e = true →
          keepB (_compile_patterns drivers) e.path = true := by
        intro e he hisf
        rw [isFileNow_perm hperm hnd2 e] at hisf
        exact hmatched e (hperm.mem_iff.mp he) hisf
      have hdel2 : deleteFold (_compile_patterns drivers) false T2 =
          ([] ++ (T2.filter (fun e => isFileNow T2 e)).map (fun e => e.path), [], T2) :=
        foldl_filterStep_noremove (_compile_patterns drivers) T2 [] [] T2 hmatchedT2
      have hdirsT2 : ∀ x ∈ T2, x.kind = EntryKind.dir → hasChildB T2 x.path = true := by
        intro x hx hk
        rw [hasChildB_perm hperm x.path]
        exact hdirs2 x (hperm.mem_iff.mp hx) hk
      have hpr2 : prune T2 = Except.ok T2 := prune_fixed hndT2 hdirsT2
      refine ⟨(T2.filter (fun e => isFileNow T2 e)).map (fun e => e.path), ?_⟩
      rw [runFilter_apply_eq, hdel2]
      simp only [List.nil_append, hpr2]

theorem c7_apply_idempotent_witness :
    ∃ K2, runFilter ["iwl*"] false [⟨["iwl.ucode"], EntryKind.file⟩] =
      Except.ok (K2, [], [⟨["iwl.ucode"], EntryKind.file⟩]) :=
  c7_apply_idempotent wTree5 ["iwl*"] (by decide)
    [["iwl.ucode"]] [["rtl", "a.fw"]] [⟨["iwl.ucode"], EntryKind.file⟩]
    (by decide) [⟨["iwl.ucode"], EntryKind.file⟩] (List.Perm.refl _)

/-! ### Claim C8: dry-run versus apply equivalence -/

theorem pruneStep_nosym_ok {st : List Entry} (hns : NoSymlinkEntry st) (p : List String) :
    pruneStep (Except.ok st) p = Except.ok st ∨
    pruneStep (Except.ok st) p = Except.ok (eraseP st p) := by
  cases hf : findEntry st p with
  | none => exact Or.inl (by simp [pruneStep, hf])
  | some e =>
      obtain ⟨hmem, hpath⟩ := mem_of_findEntry hf
      cases hk : e.kind with
      | dir =>
          by_cases hch : hasChildB st p = true
          · exact Or.inl (by simp [pruneStep, hf, hk, hch])
          · have hch2 : hasChildB st p = false := by simpa using hch
            exact Or.inr (by simp [pruneStep, hf, hk, hch2])
      | symlink t =>
          have hs := hns e hmem
          rw [hk] at hs
          simp [isSymKind] at hs
      | file => exact Or.inl (by simp [pruneStep, hf, hk])
      | other => exact Or.inl (by simp [pruneStep, hf, hk])

theorem prune_fold_nosym_ok :
    ∀ (L : List (List String)) (st : List Entry), NoSymlinkEntry st →
      ∃ st', L.foldl pruneStep (Except.ok st) = Except.ok st' ∧ st'.Sublist st := by
  intro L
  induction L with
  | nil => intro st _; exact ⟨st, rfl, List.Sublist.refl _⟩
  | cons p L ih =>
      intro st hns
      rw [List.foldl_cons]
      rcases pruneStep_nosym_ok hns p with h | h
      · rw [h]
        exact ih st hns
      · rw [h]
        obtain ⟨st', h1, h2⟩ := ih (eraseP st p) (nosym_sublist (eraseP_sublist st p) hns)
        exact ⟨st', h1, h2.trans (eraseP_sublist st p)⟩

/-- C8 (amended): for a tree containing no symlink entries, the kept/removed
partition computed in dry-run mode is identical to the partition enacted by
apply mode on the same tree, and dry-run mode performs no mutation at all:
its resulting tree is exactly the input tree.  (With symlinks the partitions
can differ, because apply mode's deletions change later `is_file()` results —
see the counterexample.) -/
theorem c8_dry_run_apply_equiv (T : List Entry) (drivers : List String)
    (hnd : PathNodup T) (hns : NoSymlinkEntry T) :
    ∃ K R F, runFilter drivers true T = Except.ok (K, R, T) ∧
      runFilter drivers false T = Except.ok (K, R, F) := by
  have hdry := foldl_filterStep_dry (_compile_patterns drivers) T [] [] T
  have happ := deleteFold_nosym_eq (_compile_patterns drivers) T hnd hns
  have hkf : T.filter (fun e => isFileNow T e && keepB (_compile_patterns drivers) e.path) =
      T.filter (fun e => e.kind == EntryKind.file && keepB (_compile_patterns drivers) e.path) := by
    refine List.filter_congr ?_
    intro e he
    rw [isFileNow_nosym (hns e he)]
  have hrf : T.filter (fun e => isFileNow T e && !keepB (_compile_patterns drivers) e.path) =
      T.filter (fun e => e.kind == EntryKind.file && !keepB (_compile_patterns drivers) e.path) := by
    refine List.filter_congr ?_
    intro e he
    rw [isFileNow_nosym (hns e he)]
  obtain ⟨F, hprF, _⟩ := prune_fold_nosym_ok
    (sortDesc (((T.filter (survPred (_compile_patterns drivers)))).map (fun e => e.path)))
    (T.filter (survPred (_compile_patterns drivers)))
    (nosym_sublist (List.filter_sublist T) hns)
  have hpr : prune (T.filter (survPred (_compile_patterns drivers))) = Except.ok F := hprF
  refine ⟨(T.filter (fun e => e.kind == EntryKind.file &&
      keepB (_compile_patterns drivers) e.path)).map (fun e => e.path),
    (T.filter (fun e => e.kind == EntryKind.file &&
      !keepB (_compile_patterns drivers) e.path)).map (fun e => e.path), F, ?_, ?_⟩
  · rw [runFilter_dry_eq]
    unfold deleteFold
    rw [hdry]
    simp only [List.nil_append, hkf, hrf]
  · rw [runFilter_apply_eq, happ]
    simp only [hpr]

theorem c8_dry_run_apply_equiv_witness :
    ∃ K R F,
      runFilter ["iwl*"] true wTree5 = Except.ok (K, R, wTree5) ∧
      runFilter ["iwl*"] false wTree5 = Except.ok (K, R, F) :=
  c8_dry_run_apply_equiv wTree5 ["iwl*"] (by decide) (by decide)

/-- C8 counterexample: on `cTreeTL` with an empty pattern list, dry-run
classifies both `t` and the symlink `l` as removed, but apply mode (visiting
`t` first) unlinks `t`, after which `l` is dangling, fails the `is_file()`
test, and is neither classified nor deleted: the enacted partition removes
only `t` and `l` survives on disk.  The two partitions differ. -/
theorem c8_symlink_order_counterexample :
    runFilter [] true cTreeTL =
      Except.ok ([], [["t"], ["l"]], cTreeTL) ∧
    runFilter [] false cTreeTL =
      Except.ok ([], [["t"]], [⟨["l"], EntryKind.symlink ["t"]⟩]) := by
  constructor
  · decide
  · decide

/-! ### Claim C2: the kept/removed partition -/

/-- C2 (amended): `filter_firmware_files` classifies exactly the entries that
pass the `is_file()` test (regular files and symlinks resolving to regular
files) — each exactly once, kept iff some matcher accepts its relative path.
In dry-run mode the result is the partition of those entries by the matcher
disjunction, kept and removed are disjoint, their union is exactly the set of
file-test-passing entries, and the partition is independent of the
enumeration order (it is a permutation for any permuted enumeration).
(The original claim described the classified set as the regular files; a
symlink to a regular file is also classified — see the counterexample.) -/
theorem c2_partition_characterization (T : List Entry) (drivers : List String)
    (hnd : PathNodup T) :
    runFilter drivers true T = Except.ok
      ((T.filter (fun e => isFileNow T e &&
          keepB (_compile_patterns drivers) e.path)).map (fun e => e.path),
       (T.filter (fun e => isFileNow T e &&
          !keepB (_compile_patterns drivers) e.path)).map (fun e => e.path),
       T) ∧
    (∀ p, ¬(p ∈ (T.filter (fun e => isFileNow T e &&
          keepB (_compile_patterns drivers) e.path)).map (fun e => e.path) ∧
        p ∈ (T.filter (fun e => isFileNow T e &&
          !keepB (_compile_patterns drivers) e.path)).map (fun e => e.path))) ∧
    (∀ p, (p ∈ (T.filter (fun e => isFileNow T e &&
          keepB (_compile_patterns drivers) e.path)).map (fun e => e.path) ∨
        p ∈ (T.filter (fun e => isFileNow T e &&
          !keepB (_compile_patterns drivers) e.path)).map (fun e => e.path)) ↔
      ∃ e ∈ T, e.path = p ∧ isFileNow T e = true) ∧
    (∀ T2 : List Entry, T2.Perm T →
      runFilter drivers true T2 = Except.ok
        ((T2.filter (fun e => isFileNow T e &&
            keepB (_compile_patterns drivers) e.path)).map (fun e => e.path),
         (T2.filter (fun e => isFileNow T e &&
            !keepB (_compile_patterns drivers) e.path)).map (fun e => e.path),
         T2) ∧
      ((T2.filter (fun e => isFileNow T e &&
          keepB (_compile_patterns drivers) e.path)).map (fun e => e.path)).Perm
        ((T.filter (fun e => isFileNow T e &&
          keepB (_compile_patterns drivers) e.path)).map (fun e => e.path)) ∧
      ((T2.filter (fun e => isFileNow T e &&
          !keepB (_compile_patterns drivers) e.path)).map (fun e => e.path)).Perm
        ((T.filter (fun e => isFileNow T e &&
          !keepB (_compile_patterns drivers) e.path)).map (fun e => e.path))) := by
  refine ⟨?_, ?_, ?_, ?_⟩
  · rw [runFilter_dry_eq]
    unfold deleteFold
    rw [foldl_filterStep_dry]
    simp
  · rintro p ⟨hk, hr⟩
    obtain ⟨e1, he1, hp1⟩ := List.mem_map.mp hk
    obtain ⟨e2, he2, hp2⟩ := List.mem_map.mp hr
    have hf1 := List.mem_filter.mp he1
    have hf2 := List.mem_filter.mp he2
    have he12 : e1 = e2 := entry_unique hnd hf1.1 hf2.1 (hp1.trans hp2.symm)
    rw [he12] at hf1
    simp only [Bool.and_eq_true] at hf1 hf2
    rw [hf1.2.2] at hf2
    simp at hf2
  · intro p
    constructor
    · intro h
      rcases h with h | h
      · obtain ⟨e, he, hp⟩ := List.mem_map.mp h
        have hf := List.mem_filter.mp he
        simp only [Bool.and_eq_true] at hf
        exact ⟨e, hf.1, hp, hf.2.1⟩
      · obtain ⟨e, he, hp⟩ := List.mem_map.mp h
        have hf := List.mem_filter.mp he
        simp only [Bool.and_eq_true] at hf
        exact ⟨e, hf.1, hp, hf.2.1⟩
    · rintro ⟨e, he, hp, hisf⟩
      by_cases hk : keepB (_compile_patterns drivers) e.path = true
      · refine Or.inl (List.mem_map.mpr ⟨e, ?_, hp⟩)
        exact List.mem_filter.mpr ⟨he, by rw [hisf, hk]; rfl⟩
      · have hk2 : keepB (_compile_patterns drivers) e.path = false := by simpa using hk
        refine Or.inr (List.mem_map.mpr ⟨e, ?_, hp⟩)
        exact List.mem_filter.mpr ⟨he, by rw [hisf, hk2]; rfl⟩
  · intro T2 hperm
    refine ⟨?_, ?_, ?_⟩
    · rw [runFilter_dry_eq]
      unfold deleteFold
      rw [foldl_filterStep_dry]
      have hcong : ∀ (b : Bool → Bool),
          T2.filter (fun e => isFileNow T2 e && b (keepB (_compile_patterns drivers) e.path)) =
          T2.filter (fun e => isFileNow T e && b (keepB (_compile_patterns drivers) e.path)) := by
        intro b
        refine List.filter_congr ?_
        intro e he
        rw [isFileNow_perm hperm hnd e]
      have h1 := hcong (fun x => x)
      have h2 := hcong (fun x => !x)
      simp only [] at h1 h2
      simp [h1, h2]
    · exact List.Perm.map _ (List.Perm.filter _ hperm)
    · exact List.Perm.map _ (List.Perm.filter _ hperm)

theorem c2_partition_characterization_witness :
    runFilter ["iwl*"] true wTree5 = Except.ok
      ((wTree5.filter (fun e => isFileNow wTree5 e &&
          keepB (_compile_patterns ["iwl*"]) e.path)).map (fun e => e.path),
       (wTree5.filter (fun e => isFileNow wTree5 e &&
          !keepB (_compile_patterns ["iwl*"]) e.path)).map (fun e => e.path),
       wTree5) :=
  (c2_partition_characterization wTree5 ["iwl*"] (by decide)).1

/-- C2 counterexample: in the tree `cTreeTL` the symlink `l` (not a regular
file) is classified — it appears in the removed list of a dry run with no
patterns — so kept ∪ removed is strictly larger than the set of regular files,
contradicting the claimed invariant kept ∪ removed = regular files. -/
theorem c2_symlink_in_partition_counterexample :
    runFilter [] true cTreeTL = Except.ok ([], [["t"], ["l"]], cTreeTL) ∧
    (∀ e ∈ cTreeTL, e.path = ["l"] → e.kind ≠ EntryKind.file) := by
  constructor
  · decide
  · decide

/-! ### Claim C3: non-regular entries -/

/-- C3 (amended): directories and special (`other`) entries are never
classified into the kept/removed partition and never deleted by the
file-removal pass, in either mode; and the pruning pass of apply mode removes
directory entries only.  (The original claim also asserted this for all
symlinks; a symlink that resolves to a regular file is in fact classified and
unlinked — see the counterexample.) -/
theorem c3_nonregular_never_classified (T : List Entry) (drivers : List String)
    (dr : Bool) (hnd : PathNodup T) :
    (∀ e ∈ T, (e.kind = EntryKind.dir ∨ e.kind = EntryKind.other) →
       e.path ∉ (deleteFold (_compile_patterns drivers) dr T).1 ∧
       e.path ∉ (deleteFold (_compile_patterns drivers) dr T).2.1 ∧
       e ∈ (deleteFold (_compile_patterns drivers) dr T).2.2) ∧
    (∀ K R F, runFilter drivers false T = Except.ok (K, R, F) →
       ∀ x ∈ (deleteFold (_compile_patterns drivers) false T).2.2,
         x ∉ F → x.kind = EntryKind.dir) := by
  constructor
  · intro e he hk
    refine ⟨?_, ?_, ?_⟩
    · intro hmem
      rcases foldl_filterStep_kept_origin (_compile_patterns drivers) dr T ([], [], T)
          e.path hmem with h | ⟨e2, he2, hp2, hk2⟩
      · simp at h
      · have he12 : e2 = e := entry_unique hnd he2 he hp2
        rw [he12] at hk2
        rcases hk with h | h <;> rcases hk2 with h2 | h2 <;>
          simp [h, isSymKind] at h2
    · intro hmem
      rcases foldl_filterStep_removed_origin (_compile_patterns drivers) dr T ([], [], T)
          e.path hmem with h | ⟨e2, he2, hp2, hk2⟩
      · simp at h
      · have he12 : e2 = e := entry_unique hnd he2 he hp2
        rw [he12] at hk2
        rcases hk with h | h <;> rcases hk2 with h2 | h2 <;>
          simp [h, isSymKind] at h2
    · refine foldl_filterStep_keeps_nonfile (_compile_patterns drivers) dr T ([], [], T)
        e he hk ?_
      intro e2 he2 hp2
      exact entry_unique hnd he2 he hp2
  · intro K R F h x hx hnx
    rw [runFilter_apply_eq] at h
    have hS1nd : PathNodup (deleteFold (_compile_patterns drivers) false T).2.2 :=
      pathNodup_sublist (foldl_filterStep_state_sublist _ false T ([], [], T)) hnd
    cases hpr : prune (deleteFold (_compile_patterns drivers) false T).2.2 with
    | error m => rw [hpr] at h; exact absurd h (by simp)
    | ok st2 =>
        rw [hpr] at h
        simp only [Except.ok.injEq, Prod.mk.injEq] at h
        obtain ⟨_, _, hF⟩ := h
        rw [hF] at hpr
        exact (prune_ok_sublist hS1nd hpr).2 x hx hnx

theorem c3_nonregular_never_classified_witness :
    (∀ e ∈ wTree5, (e.kind = EntryKind.dir ∨ e.kind = EntryKind.other) →
       e.path ∉ (deleteFold (_compile_patterns ["iwl*"]) true wTree5).1 ∧
       e.path ∉ (deleteFold (_compile_patterns ["iwl*"]) true wTree5).2.1 ∧
       e ∈ (deleteFold (_compile_patterns ["iwl*"]) true wTree5).2.2) ∧
    (∀ K R F, runFilter ["iwl*"] false wTree5 = Except.ok (K, R, F) →
       ∀ x ∈ (deleteFold (_compile_patterns ["iwl*"]) false wTree5).2.2,
         x ∉ F → x.kind = EntryKind.dir) :=
  c3_nonregular_never_classified wTree5 ["iwl*"] true (by decide)

/-- C3 counterexample: in `cTreeTL` with the pattern list `["t"]`, the symlink
`l` resolves to the kept regular file `t`, passes `is_file()`, is classified
(it matches nothing, so it lands in the removed list) and is unlinked by the
file-removal pass — it is gone from the resulting tree.  This contradicts the
claim that symlinks are never classified and never deleted directly. -/
theorem c3_symlink_classified_counterexample :
    (deleteFold (_compile_patterns ["t"]) false cTreeTL).2.1 = [["l"]] ∧
    (∀ e ∈ cTreeTL, e.path = ["l"] → isSymKind e.kind = true) ∧
    (∀ e ∈ (deleteFold (_compile_patterns ["t"]) false cTreeTL).2.2, e.path ≠ ["l"]) := by
  refine ⟨by decide, by decide, by decide⟩

theorem keepB_nil (p : List String) : keepB (_compile_patterns []) p = false := rfl

theorem foldl_filterStep_no_keep (pats : List (List Tok)) (dr : Bool)
    (hk : ∀ p, keepB pats p = false) :
    ∀ (l : List Entry) (acc : List (List String) × List (List String) × List Entry),
      (l.foldl (filterStep pats dr) acc).1 = acc.1 := by
  intro l
  induction l with
  | nil => intro acc; rfl
  | cons e rest ih =>
      intro acc
      rw [List.foldl_cons, ih]
      unfold filterStep
      split
      · rw [if_neg (by rw [hk e.path]; simp)]
      · rfl

/-- C9 (amended): when the configuration document parses to a falsy value
(empty document = `None`, empty mapping, empty list, …) or to a mapping
without the `drivers` key, `read_drivers_yaml` returns the empty list without
error, and the subsequent filter run with zero patterns keeps nothing and
classifies every regular file as removed — an absent `drivers` key silently
means "remove everything".  (A truthy non-mapping document instead crashes
with an uncaught `AttributeError` — see the counterexample.) -/
theorem c9_missing_drivers_key (doc : Yaml) (T : List Entry) (dr : Bool)
    (h : yamlFalsy doc = true ∨
      ∃ kvs, doc = Yaml.dict kvs ∧ lookupKey kvs "drivers" = none) :
    read_drivers_yaml doc = Except.ok [] ∧
    (deleteFold (_compile_patterns []) dr T).1 = [] ∧
    (∀ e ∈ T, e.kind = EntryKind.file →
      e.path ∈ (deleteFold (_compile_patterns []) dr T).2.1) := by
  refine ⟨?_, ?_, ?_⟩
  · unfold read_drivers_yaml
    rcases h with h | ⟨kvs, hdoc, hlk⟩
    · rw [if_pos h]
      rfl
    · subst hdoc
      by_cases hf : yamlFalsy (Yaml.dict kvs) = true
      · rw [if_pos hf]
        rfl
      · rw [if_neg hf]
        simp only [hlk]
  · exact foldl_filterStep_no_keep (_compile_patterns []) dr keepB_nil T ([], [], T)
  · intro e he hk
    exact (foldl_filterStep_file_classified (_compile_patterns []) dr T ([], [], T)
      e he hk).2 (keepB_nil e.path)

theorem c9_missing_drivers_key_witness :
    read_drivers_yaml Yaml.nullv = Except.ok [] ∧
    (deleteFold (_compile_patterns []) true cTreeTL).1 = [] ∧
    (∀ e ∈ cTreeTL, e.kind = EntryKind.file →
      e.path ∈ (deleteFold (_compile_patterns []) true cTreeTL).2.1) :=
  c9_missing_drivers_key Yaml.nullv cTreeTL true (Or.inl rfl)

/-- C9 counterexample: a document that parses successfully to the top-level
scalar string `"hello"` lacks the `drivers` key, yet `read_drivers_yaml` does
not return the empty list: `config.get` on a string raises an uncaught
`AttributeError`. -/
theorem c9_non_mapping_doc_counterexample :
    read_drivers_yaml (Yaml.str "hello") =
      Except.error "AttributeError: 'get' on non-mapping" := rfl

/-- C4 (amended): every command invoked through `run_command` that exits with
a non-zero status causes a fatal `FirmwareMinimizerError` whose message wraps
the command's captured stdout and stderr; during extraction, a non-zero exit
of `cpio` halts the run before filtering, with a fixed message that does not
include the captured output; and `rpm2cpio`'s exit status is never checked,
so a failure of `rpm2cpio` alone (with `cpio` exiting zero) does not halt the
run.  (The original claim asserted output-wrapping and fatality for both
extraction tools.) -/
theorem c4_external_command_failures (cmd : List String) (r : CmdResult)
    (h : r.exitCode ≠ 0) :
    (run_command cmd r = Except.error (String.intercalate "\n" (runCmdMsgList cmd r)) ∧
     (r.stdout ≠ "" → ("STDOUT:\n" ++ r.stdout) ∈ runCmdMsgList cmd r) ∧
     (r.stderr ≠ "" → ("STDERR:\n" ++ r.stderr) ∈ runCmdMsgList cmd r)) ∧
    (∀ (r2cRes cpioRes : CmdResult) (drivers : List String) (dr : Bool) (T : List Entry),
       cpioRes.exitCode ≠ 0 →
       extract_then_filter r2cRes cpioRes drivers dr T =
         Except.error ("Fout bij extraheren van RPM: " ++
           calledProcessErrorStr ["cpio", "-idmv"] cpioRes.exitCode)) ∧
    (∀ r2cRes cpioRes : CmdResult, cpioRes.exitCode = 0 →
       extract_rpm r2cRes cpioRes = Except.ok ()) := by
  refine ⟨⟨?_, ?_, ?_⟩, ?_, ?_⟩
  · unfold run_command
    rw [if_neg h]
  · intro hs
    unfold runCmdMsgList
    simp [hs]
  · intro hs
    unfold runCmdMsgList
    simp [hs]
  · intro r2cRes cpioRes drivers dr T hc
    unfold extract_then_filter extract_rpm
    rw [if_neg hc]
  · intro r2cRes cpioRes hc
    unfold extract_rpm
    rw [if_pos hc]

theorem c4_external_command_failures_witness :
    (run_command ["rpmbuild"] ⟨1, "out", "err"⟩ =
       Except.error (String.intercalate "\n" (runCmdMsgList ["rpmbuild"] ⟨1, "out", "err"⟩)) ∧
     (("out" : String) ≠ "" → ("STDOUT:\n" ++ "out") ∈ runCmdMsgList ["rpmbuild"] ⟨1, "out", "err"⟩) ∧
     (("err" : String) ≠ "" → ("STDERR:\n" ++ "err") ∈ runCmdMsgList ["rpmbuild"] ⟨1, "out", "err"⟩)) ∧
    (∀ (r2cRes cpioRes : CmdResult) (drivers : List String) (dr : Bool) (T : List Entry),
       cpioRes.exitCode ≠ 0 →
       extract_then_filter r2cRes cpioRes drivers dr T =
         Except.error ("Fout bij extraheren van RPM: " ++
           calledProcessErrorStr ["cpio", "-idmv"] cpioRes.exitCode)) ∧
    (∀ r2cRes cpioRes : CmdResult, cpioRes.exitCode = 0 →
       extract_rpm r2cRes cpioRes = Except.ok ()) :=
  c4_external_command_failures ["rpmbuild"] ⟨1, "out", "err"⟩ (by decide)

/-- C4 counterexample: `rpm2cpio` exits with status 3 (its stderr reporting a
failure) while `cpio` exits 0 on the truncated stream — extraction reports
success and the run continues, although the claim requires any non-zero exit
of either extraction tool to halt the run. -/
theorem c4_rpm2cpio_unchecked_counterexample :
    extract_rpm ⟨3, "", "rpm2cpio: boom"⟩ ⟨0, "", ""⟩ = Except.ok () := rfl

/-- C6: if the `rpmbuild` invocation exits non-zero, `fpm` is invoked as a
fallback over the same input tree with an output path identical to the one
the caller requested (the literal `fpmCmd extractDir outputRpm version`
invocation appears); if `fpm` succeeds the requested path is returned, and if
`fpm` also fails, `create_rpm` raises and the process exits non-zero. -/
theorem c6_fpm_fallback (env : PackEnv) (extractDir outputRpm version : String)
    (h : env.rpmbuildRes.exitCode ≠ 0) :
    fpmCmd extractDir outputRpm version ∈ (create_rpm env extractDir outputRpm version).1 ∧
    (env.fpmRes.exitCode = 0 →
       (create_rpm env extractDir outputRpm version).2 = Except.ok outputRpm) ∧
    (env.fpmRes.exitCode ≠ 0 →
       (create_rpm env extractDir outputRpm version).2 = Except.error
         "Kon geen RPM maken met rpmbuild of fpm. Installeer eventueel fpm: gem install fpm" ∧
       packagingExit env extractDir outputRpm version = 1) := by
  have hr : run_command (rpmbuildCmd extractDir specFileName) env.rpmbuildRes =
      Except.error (String.intercalate "\n"
        (runCmdMsgList (rpmbuildCmd extractDir specFileName) env.rpmbuildRes)) := by
    unfold run_command
    rw [if_neg h]
  by_cases hf : env.fpmRes.exitCode = 0
  · have hfo : run_command (fpmCmd extractDir outputRpm version) env.fpmRes =
        Except.ok env.fpmRes := by
      unfold run_command
      rw [if_pos hf]
    have hcr : create_rpm env extractDir outputRpm version =
        ([rpmbuildCmd extractDir specFileName, fpmCmd extractDir outputRpm version],
         Except.ok outputRpm) := by
      unfold create_rpm
      rw [hr, hfo]
    refine ⟨?_, ?_, ?_⟩
    · rw [hcr]
      simp
    · intro hc
      rw [hcr]
    · intro hc
      exact absurd hf hc
  · have hff : run_command (fpmCmd extractDir outputRpm version) env.fpmRes =
        Except.error (String.intercalate "\n"
          (runCmdMsgList (fpmCmd extractDir outputRpm version) env.fpmRes)) := by
      unfold run_command
      rw [if_neg hf]
    have hcr : create_rpm env extractDir outputRpm version =
        ([rpmbuildCmd extractDir specFileName, fpmCmd extractDir outputRpm version],
         Except.error
           "Kon geen RPM maken met rpmbuild of fpm. Installeer eventueel fpm: gem install fpm") := by
      unfold create_rpm
      rw [hr, hff]
    refine ⟨?_, ?_, ?_⟩
    · rw [hcr]
      simp
    · intro hc
      exact absurd hc hf
    · intro hc
      constructor
      · rw [hcr]
      · unfold packagingExit
        rw [hcr]

theorem c6_fpm_fallback_witness :
    fpmCmd "/tmp/extract" "out.rpm" "1.0" ∈
      (create_rpm ⟨⟨1, "", "boom"⟩, false, [], ⟨2, "", "fpm boom"⟩⟩
        "/tmp/extract" "out.rpm" "1.0").1 ∧
    (((⟨⟨1, "", "boom"⟩, false, [], ⟨2, "", "fpm boom"⟩⟩ : PackEnv)).fpmRes.exitCode = 0 →
       (create_rpm ⟨⟨1, "", "boom"⟩, false, [], ⟨2, "", "fpm boom"⟩⟩
         "/tmp/extract" "out.rpm" "1.0").2 = Except.ok "out.rpm") ∧
    (((⟨⟨1, "", "boom"⟩, false, [], ⟨2, "", "fpm boom"⟩⟩ : PackEnv)).fpmRes.exitCode ≠ 0 →
       (create_rpm ⟨⟨1, "", "boom"⟩, false, [], ⟨2, "", "fpm boom"⟩⟩
         "/tmp/extract" "out.rpm" "1.0").2 = Except.error
           "Kon geen RPM maken met rpmbuild of fpm. Installeer eventueel fpm: gem install fpm" ∧
       packagingExit ⟨⟨1, "", "boom"⟩, false, [], ⟨2, "", "fpm boom"⟩⟩
         "/tmp/extract" "out.rpm" "1.0" = 1) :=
  c6_fpm_fallback ⟨⟨1, "", "boom"⟩, false, [], ⟨2, "", "fpm boom"⟩⟩
    "/tmp/extract" "out.rpm" "1.0" (by decide)

/-- C10: if `rpmbuild` exits zero but no `linux-firmware-minimal-*.rpm` is
found under `~/rpmbuild/RPMS` (the directory is missing or the glob is
empty), `create_rpm` returns the caller-requested output path — no invocation
has written an archive there — without invoking the `fpm` fallback (the only
command issued is the `rpmbuild` one), and the workflow's packaging stage
reports success (exit code 0). -/
theorem c10_rpmbuild_silent_no_rpm (env : PackEnv) (extractDir outputRpm version : String)
    (h0 : env.rpmbuildRes.exitCode = 0)
    (h1 : env.rpmsDirExists = false ∨ env.builtRpms = []) :
    create_rpm env extractDir outputRpm version =
      ([rpmbuildCmd extractDir specFileName], Except.ok outputRpm) ∧
    packagingExit env extractDir outputRpm version = 0 := by
  have hnone : (if env.rpmsDirExists then env.builtRpms.getLast? else none) = none := by
    rcases h1 with h | h
    · rw [h]
      rfl
    · rw [h]
      split <;> rfl
  unfold packagingExit create_rpm run_command
  rw [if_pos h0, hnone]
  exact ⟨rfl, rfl⟩

theorem c10_rpmbuild_silent_no_rpm_witness :
    create_rpm ⟨⟨0, "built ok", ""⟩, true, [], ⟨0, "", ""⟩⟩ "/tmp/extract" "out.rpm" "1.0" =
      ([rpmbuildCmd "/tmp/extract" specFileName], Except.ok "out.rpm") ∧
    packagingExit ⟨⟨0, "built ok", ""⟩, true, [], ⟨0, "", ""⟩⟩
      "/tmp/extract" "out.rpm" "1.0" = 0 :=
  c10_rpmbuild_silent_no_rpm ⟨⟨0, "built ok", ""⟩, true, [], ⟨0, "", ""⟩⟩
    "/tmp/extract" "out.rpm" "1.0" (by decide) (Or.inr rfl)
